import Mathlib

/-!
Verification of the request dispatch and result-reconciliation engine of
`lm_eval/evaluator.py` (function `evaluate`), shallowly embedded in Lean.

The embedding follows the source line by line:

* the request-construction loop (lines 245-254) becomes `muxReqs` / `mux`;
* the batch-execution loop (lines 304-353), including the `accelerate`
  gather/padding behaviour and the last-batch truncation, becomes
  `execType` / `execAll`;
* the per-triple routing with the `assert doc_id == origin_doc_id`
  correlation check (lines 342-353) becomes `reconStep` / `reconcileType`;
* the per-bucket deduplication and sorting (lines 357-367) become
  `dedupQ` and `sortQ`;
* the aggregation stage (lines 388-418) becomes `aggregateOne`.

Backend responses are modelled by the two per-sample streams that
`HuggingFaceAutoLM._loglikelihood_tokens` returns (a tuple of a log-prob
tensor and an exact-match tensor, one sample each per request), with the
per-sample value kept abstract as a type parameter.
-/

namespace LMEval

/-- Request type identifier: the `request_type` string of a request. -/
abbrev RT := String

/-- Bucket key `(task_template_key, doc_id)` of `process_response_queue`. -/
abbrev Key := String × Nat

/-- A request as emitted by the Request Builder (`task.construct_requests`),
before the evaluation loop decorates it: its declared `request_type` and its
`index` attribute (the `request_return_index` of line 251). -/
structure PreReq where
  rt : RT
  retIdx : Option Nat
deriving DecidableEq

/-- One document of the Builder stream: the `task_template_key`, the loop
counter `doc_id` (line 230), the `doc` payload and the few-shot logging info
(both abstracted to numbers), and the list returned by `construct_requests`. -/
structure DocEntry where
  key : String
  docId : Nat
  doc : Nat
  meta : Nat
  reqs : List PreReq
deriving DecidableEq

/-- A request after the multiplexing loop (lines 245-248) has set its
`doc_id` and `unique_request_id` fields. -/
structure Req where
  rt : RT
  retIdx : Option Nat
  docId : Nat
  uid : Nat
deriving DecidableEq

/-- Origin record `(i, task_template_key, doc, doc_id,
fewshotex_logging_info, request_return_index)` appended at line 252. -/
structure Origin where
  sub : Nat
  key : String
  doc : Nat
  docId : Nat
  meta : Nat
  retIdx : Option Nat
deriving DecidableEq

/-- The two `defaultdict(list)` collections `requests` and `requests_origin`
of lines 208-209, as functions from a request type to the list stored for it
(a type never appended to is mapped to `[]`, as a `defaultdict` would). -/
structure MuxState where
  requests : RT → List Req
  origins : RT → List Origin

def emptyMux : MuxState := ⟨fun _ => [], fun _ => []⟩

/-- Inner loop `for i, req in enumerate(reqs)` of lines 245-254: set
`req.doc_id = doc_id`, assign
`req.unique_request_id = len(requests_origin[req.request_type])`, append the
request to `requests[req.request_type]` and the origin record to
`requests_origin[req.request_type]`. -/
def muxReqs (key : String) (doc docId meta : Nat) :
    Nat → List PreReq → MuxState → MuxState
  | _, [], st => st
  | i, r :: rs, st =>
      let req : Req := ⟨r.rt, r.retIdx, docId, (st.origins r.rt).length⟩
      let og : Origin := ⟨i, key, doc, docId, meta, r.retIdx⟩
      muxReqs key doc docId meta (i + 1) rs
        ⟨fun t => if t = r.rt then st.requests t ++ [req] else st.requests t,
         fun t => if t = r.rt then st.origins t ++ [og] else st.origins t⟩

/-- The whole request-construction loop over the document stream
(the Request Multiplexer). -/
def mux (stream : List DocEntry) : MuxState :=
  stream.foldl (fun st d => muxReqs d.key d.doc d.docId d.meta 0 d.reqs st)
    emptyMux

/-! ### A closed form for the multiplexer -/

/-- A Builder request tagged with everything the construction loop knows
about it; used only to state a closed form of the multiplexer. -/
structure Tagged where
  rt : RT
  retIdx : Option Nat
  key : String
  doc : Nat
  docId : Nat
  meta : Nat
  sub : Nat
deriving DecidableEq

/-- Tag the requests of one document with their enumeration index,
starting at `i`. -/
def tagFrom (key : String) (doc docId meta : Nat) :
    Nat → List PreReq → List Tagged
  | _, [] => []
  | i, r :: rs =>
      ⟨r.rt, r.retIdx, key, doc, docId, meta, i⟩ ::
        tagFrom key doc docId meta (i + 1) rs

def tagDoc (d : DocEntry) : List Tagged :=
  tagFrom d.key d.doc d.docId d.meta 0 d.reqs

/-- The full Builder request stream, in construction order. -/
def taggedStream (stream : List DocEntry) : List Tagged :=
  (stream.map tagDoc).flatten

def filterRt (rt : RT) (l : List Tagged) : List Tagged :=
  l.filter (fun t => t.rt = rt)

/-- Turn tagged requests into `Req`s with consecutive `unique_request_id`s
starting at `base`. -/
def withUids (base : Nat) : List Tagged → List Req
  | [] => []
  | t :: ts => ⟨t.rt, t.retIdx, t.docId, base⟩ :: withUids (base + 1) ts

def originOf (t : Tagged) : Origin :=
  ⟨t.sub, t.key, t.doc, t.docId, t.meta, t.retIdx⟩

theorem withUids_append (b : Nat) (xs ys : List Tagged) :
    withUids b (xs ++ ys) = withUids b xs ++ withUids (b + xs.length) ys := by
  induction xs generalizing b with
  | nil => simp [withUids]
  | cons x xs ih =>
      simp [withUids, ih (b + 1), Nat.add_comm, Nat.add_assoc, Nat.add_left_comm]

theorem withUids_length (b : Nat) (l : List Tagged) :
    (withUids b l).length = l.length := by
  induction l generalizing b with
  | nil => rfl
  | cons x xs ih => simp [withUids, ih]

theorem filterRt_append (rt : RT) (xs ys : List Tagged) :
    filterRt rt (xs ++ ys) = filterRt rt xs ++ filterRt rt ys := by
  simp [filterRt]

/-- Closed form of the inner per-document loop. -/
theorem muxReqs_closed (key : String) (doc docId meta : Nat) (rt : RT) :
    ∀ (rs : List PreReq) (i : Nat) (st : MuxState),
      (muxReqs key doc docId meta i rs st).requests rt =
        st.requests rt ++
          withUids (st.origins rt).length
            (filterRt rt (tagFrom key doc docId meta i rs)) ∧
      (muxReqs key doc docId meta i rs st).origins rt =
        st.origins rt ++
          (filterRt rt (tagFrom key doc docId meta i rs)).map originOf := by
  intro rs
  induction rs with
  | nil => intro i st; simp [muxReqs, tagFrom, filterRt, withUids]
  | cons r rs ih =>
      intro i st
      obtain ⟨ih1, ih2⟩ := ih (i + 1)
        ⟨fun t => if t = r.rt then st.requests t ++
            [⟨r.rt, r.retIdx, docId, (st.origins r.rt).length⟩] else st.requests t,
         fun t => if t = r.rt then st.origins t ++
            [⟨i, key, doc, docId, meta, r.retIdx⟩] else st.origins t⟩
      simp only [muxReqs]
      by_cases h : rt = r.rt
      · subst h
        simp only [if_pos rfl] at ih1 ih2
        rw [ih1, ih2]
        have hf : filterRt r.rt (tagFrom key doc docId meta i (r :: rs)) =
            (⟨r.rt, r.retIdx, key, doc, docId, meta, i⟩ : Tagged) ::
              filterRt r.rt (tagFrom key doc docId meta (i + 1) rs) := by
          simp [tagFrom, filterRt]
        rw [hf]
        constructor
        · simp [withUids, List.append_assoc]
        · simp [originOf, List.append_assoc]
      · simp only [if_neg h] at ih1 ih2
        rw [ih1, ih2]
        have hf : filterRt rt (tagFrom key doc docId meta i (r :: rs)) =
            filterRt rt (tagFrom key doc docId meta (i + 1) rs) := by
          simp only [tagFrom, filterRt, List.filter_cons]
          have : ¬ ((⟨r.rt, r.retIdx, key, doc, docId, meta, i⟩ : Tagged).rt = rt) := by
            intro hc
            exact h hc.symm
          simp [this]
        rw [hf]
        exact ⟨rfl, rfl⟩

/-- Closed form of the Request Multiplexer: per request type, the requests
are the type's Builder requests in stream order with `unique_request_id`s
`0, 1, 2, …`, and the origin records are the corresponding records in the
same order. -/
theorem mux_closed (stream : List DocEntry) (rt : RT) :
    (mux stream).requests rt =
      withUids 0 (filterRt rt (taggedStream stream)) ∧
    (mux stream).origins rt =
      (filterRt rt (taggedStream stream)).map originOf := by
  suffices h : ∀ st : MuxState,
      (stream.foldl
        (fun st d => muxReqs d.key d.doc d.docId d.meta 0 d.reqs st) st).requests rt =
        st.requests rt ++
          withUids (st.origins rt).length (filterRt rt (taggedStream stream)) ∧
      (stream.foldl
        (fun st d => muxReqs d.key d.doc d.docId d.meta 0 d.reqs st) st).origins rt =
        st.origins rt ++ (filterRt rt (taggedStream stream)).map originOf by
    have := h emptyMux
    simpa [mux, emptyMux] using this
  induction stream with
  | nil => intro st; simp [taggedStream, filterRt, withUids]
  | cons d ds ih =>
      intro st
      obtain ⟨h1, h2⟩ := muxReqs_closed d.key d.doc d.docId d.meta rt d.reqs 0 st
      obtain ⟨ih1, ih2⟩ := ih (muxReqs d.key d.doc d.docId d.meta 0 d.reqs st)
      have hts : taggedStream (d :: ds) = tagDoc d ++ taggedStream ds := by
        simp [taggedStream]
      constructor
      · rw [List.foldl_cons, ih1, h1, h2, hts, filterRt_append,
          withUids_append, List.append_assoc]
        simp [tagDoc]
      · rw [List.foldl_cons, ih2, h2, hts, filterRt_append, List.map_append,
          List.append_assoc]
        simp [tagDoc]

/-! ### Batch Executor (lines 272-353) -/

/-- A value as it appears in one gathered response position of the executor:
`pairv` is a per-sample `(log-prob, exact-match)` tuple produced by
`list(zip(*responses))` at line 335; `streamv` is a whole gathered stream
tensor, which the tuple slice of line 329 can leave in place of a per-sample
value; `scal` is a component extracted by `response[request_return_index]`
at line 347. -/
inductive RVal (ρ : Type) where
  | scal : ρ → RVal ρ
  | pairv : ρ → ρ → RVal ρ
  | streamv : List ρ → RVal ρ
deriving DecidableEq

/-- One element of the zipped `(unique_request_ids, doc_ids, responses)`
stream consumed at line 342. -/
structure Triple (ρ : Type) where
  uid : Nat
  docId : Nat
  val : RVal ρ
deriving DecidableEq

/-- Execution configuration: per-process batch size `B`, number of
processes `W`, and whether `accelerator.use_distributed` holds. -/
structure ExecCfg where
  B : Nat
  W : Nat
  dist : Bool
deriving DecidableEq

/-- Fuel-driven worker for `chunks`; the fuel starts at the list length, so
the recursion is structural and computable by the kernel. -/
def chunksGo (k : Nat) : Nat → List α → List (List α)
  | _, [] => []
  | 0, l => [l]
  | fuel + 1, a :: l =>
      (a :: l).take k :: chunksGo k fuel ((a :: l).drop k)

/-- Split a list into consecutive batches of size `k` (the last one may be
shorter), as a `DataLoader` with `shuffle=False` yields them. -/
def chunks (k : Nat) (l : List α) : List (List α) :=
  chunksGo k l.length l

/-- Per-sample emission for one request: the ids travel with the sample and
the response is the zipped pair of the two stream values. -/
def mkPair (f0 f1 : Req → ρ) (r : Req) : Triple ρ :=
  ⟨r.uid, r.docId, .pairv (f0 r) (f1 r)⟩

/-- How many components of the 2-tuple
`(gathered stream 0, gathered stream 1)` the Python slice `responses[:k]`
of line 329 keeps: the slice is applied to the tuple of streams, not to the
per-sample stream. -/
def pyTupleKeep (k : Int) : Nat :=
  if k < 0 then Int.toNat (2 + k) else min 2 (Int.toNat k)

/-- The final batch of a request type under distributed execution
(lines 327-342): slice the response tuple by
`len(dataset) - samples_seen`, rebuild per-sample pairs via
`list(zip(*responses))` only when more than one component survives, and let
`zip(unique_request_ids, doc_ids, responses)` truncate to the shortest of
its arguments. -/
def execLast (f0 f1 : Req → ρ) (keep : Int) (batch : List Req) :
    List (Triple ρ) :=
  let c := pyTupleKeep keep
  if 2 ≤ c then batch.map (mkPair f0 f1)
  else if c = 1 then
    match batch with
    | [] => []
    | r :: _ => [⟨r.uid, r.docId, .streamv (batch.map f0)⟩]
  else []

/-- The `for step, request_batch in enumerate(requests_data_loader)` loop in
its distributed form (lines 306-342): every batch but the last emits all its
per-sample pairs and advances `samples_seen` by `len(responses)` — which is
`2`, the length of the gathered response tuple; the last batch goes through
`execLast`. -/
def execLoop (f0 f1 : Req → ρ) (n : Nat) : Int → List (List Req) → List (Triple ρ)
  | _, [] => []
  | seen, [b] => execLast f0 f1 ((n : Int) - seen) b
  | seen, b :: b2 :: bs =>
      b.map (mkPair f0 f1) ++ execLoop f0 f1 n (seen + 2) (b2 :: bs)

/-- Padding added by `accelerate` so that every process sees full batches:
the stream is completed to a multiple of the global batch size by cycling
samples from the beginning of the dataset. -/
def padLen (G n : Nat) : Nat := (G - n % G) % G

def padStream (G : Nat) (reqs : List Req) : List Req :=
  reqs ++
    ((List.replicate (padLen G reqs.length) reqs).flatten.take
      (padLen G reqs.length))

/-- Batch execution of one request type (lines 304-342): non-distributed,
the `DataLoader` yields the requests in order in batches of `B` and every
per-sample pair is emitted; distributed, the padded stream is processed in
global batches of `W*B` gathered in rank order. -/
def execType (cfg : ExecCfg) (f0 f1 : Req → ρ) (reqs : List Req) :
    List (Triple ρ) :=
  if cfg.dist then
    let G := cfg.W * cfg.B
    execLoop f0 f1 reqs.length 0 (chunks G (padStream G reqs))
  else ((chunks cfg.B reqs).map (fun b => b.map (mkPair f0 f1))).flatten

/-- The backend capability looked up by `getattr(model, request_type)` at
line 317: for a registered type, the two per-sample response streams of
`HuggingFaceAutoLM._loglikelihood_tokens`, one function per stream. -/
def Backend (ρ : Type) := RT → Option ((Req → ρ) × (Req → ρ))

inductive ExecErr where
  | noAttr : RT → ExecErr
deriving DecidableEq

/-- Run every request type in dict insertion order. A type whose name is not
an attribute of the model raises `AttributeError` at its first batch; a type
with no requests has no batches, so the `getattr` is never reached. -/
def execAll (cfg : ExecCfg) (bk : Backend ρ) :
    List RT → (RT → List Req) → Except ExecErr (List (RT × List (Triple ρ)))
  | [], _ => .ok []
  | rt :: rts, requests =>
      match bk rt, requests rt with
      | none, [] =>
          match execAll cfg bk rts requests with
          | .error e => .error e
          | .ok l => .ok ((rt, []) :: l)
      | none, _ :: _ => .error (.noAttr rt)
      | some fg, rs =>
          match execAll cfg bk rts requests with
          | .error e => .error e
          | .ok l => .ok ((rt, execType cfg fg.1 fg.2 rs) :: l)

/-! ### Response Reconciler (lines 342-367) -/

/-- One entry `(i, response, fewshotex_logging_info, unique_request_id)` of
a `process_response_queue` bucket (line 351). -/
structure QEntry (ρ : Type) where
  sub : Nat
  resp : RVal ρ
  meta : Nat
  uid : Nat
deriving DecidableEq

inductive RecErr where
  | uidAbsent
  | docMismatch
  | badIndex
deriving DecidableEq

/-- Python `response[request_return_index]` (line 347): index into the
per-sample tuple, or into a raw stream tensor; out of range raises. -/
def pyIndex : RVal ρ → Nat → Option (RVal ρ)
  | .pairv a _, 0 => some (.scal a)
  | .pairv _ b, 1 => some (.scal b)
  | .pairv _ _, _ => none
  | .streamv s, i => (s.get? i).map .scal
  | .scal _, _ => none

/-- One iteration of the reconciliation loop (lines 342-353): look up the
origin record at index `unique_request_id` (an `IndexError` if absent),
assert the carried `doc_id` equals the recorded one, unwrap the response by
`request_return_index` when it is not `None`, and emit the entry for the
bucket of `(task_template_key, int(doc_id))`. -/
def reconStep (origins : List Origin) (t : Triple ρ) :
    Except RecErr (Key × QEntry ρ) :=
  match origins.get? t.uid with
  | none => .error .uidAbsent
  | some o =>
      if t.docId = o.docId then
        match o.retIdx with
        | none => .ok ((o.key, t.docId), ⟨o.sub, t.val, o.meta, t.uid⟩)
        | some j =>
            match pyIndex t.val j with
            | none => .error .badIndex
            | some v => .ok ((o.key, t.docId), ⟨o.sub, v, o.meta, t.uid⟩)
      else .error .docMismatch

/-- Reconcile the gathered triples of one request type, aborting on the
first failure (an uncaught exception ends the run). -/
def reconcileType (origins : List Origin) :
    List (Triple ρ) → Except RecErr (List (Key × QEntry ρ))
  | [] => .ok []
  | t :: ts =>
      match reconStep origins t with
      | .error e => .error e
      | .ok x =>
          match reconcileType origins ts with
          | .error e => .error e
          | .ok xs => .ok (x :: xs)

/-- Reconcile all request types in execution order; the queue lists every
emission in order, keyed by bucket. -/
def reconcileAll (origins : RT → List Origin) :
    List (RT × List (Triple ρ)) → Except RecErr (List (Key × QEntry ρ))
  | [] => .ok []
  | (rt, ts) :: rest =>
      match reconcileType (origins rt) ts with
      | .error e => .error e
      | .ok q =>
          match reconcileAll origins rest with
          | .error e => .error e
          | .ok qs => .ok (q ++ qs)

/-- Keep the first occurrence of each key, with an accumulator of keys
already seen — the shape of both the `unique_request_ids` set filter of
lines 358-364 and of dict key insertion order. -/
def keepFirstBy [DecidableEq κ] (key : α → κ) : List κ → List α → List α
  | _, [] => []
  | seen, x :: xs =>
      if key x ∈ seen then keepFirstBy key seen xs
      else x :: keepFirstBy key (key x :: seen) xs

def dedupFirst [DecidableEq α] (l : List α) : List α :=
  keepFirstBy id [] l

/-- The keys of the `requests` dict in insertion order: the distinct request
types in first-occurrence order over the Builder stream. -/
def typesOf (stream : List DocEntry) : List RT :=
  dedupFirst ((taggedStream stream).map (fun t => t.rt))

/-- The entries of one `process_response_queue` bucket, in append order. -/
def bucketOf (q : List (Key × QEntry ρ)) (k : Key) : List (QEntry ρ) :=
  (q.filter (fun p => p.1 = k)).map (fun p => p.2)

/-- The bucket keys in first-insertion order (dict iteration order of
line 357). -/
def keysOf (q : List (Key × QEntry ρ)) : List Key :=
  dedupFirst (q.map (fun p => p.1))

/-- Per-bucket deduplication (lines 358-364): keep the first-seen entry per
`unique_request_id`. -/
def dedupQ (l : List (QEntry ρ)) : List (QEntry ρ) :=
  keepFirstBy (fun e => e.uid) [] l

/-- Per-bucket ordering (line 365): Python's stable `list.sort` keyed on the
enumeration index `i`, i.e. a stable insertion sort on `sub`. -/
def sortQ (l : List (QEntry ρ)) : List (QEntry ρ) :=
  l.insertionSort (fun a b => a.sub ≤ b.sub)

/-- The surviving, ordered entries of one bucket. -/
def bundleEntries (l : List (QEntry ρ)) : List (QEntry ρ) :=
  sortQ (dedupQ l)

/-- The per-document Result Bundle `per_doc_results` (line 366). -/
def bundle (l : List (QEntry ρ)) : List (RVal ρ) :=
  (bundleEntries l).map (fun e => e.resp)

/-- `fewshot_logging_info` of the bucket: the first sorted entry's logging
info (line 367). -/
def bundleMeta (l : List (QEntry ρ)) : Option Nat :=
  ((bundleEntries l).map (fun e => e.meta)).head?

/-- The identity triples recovered by the Reconciler after dedup: one
`(task_template_key, doc_id, sub_index)` per surviving entry per bucket. -/
def recoveredTriples (q : List (Key × QEntry ρ)) : List (String × Nat × Nat) :=
  ((keysOf q).map fun k =>
    (bundleEntries (bucketOf q k)).map (fun e => (k.1, k.2, e.sub))).flatten

/-- The identity triples produced at construction. -/
def constructedTriples (stream : List DocEntry) : List (String × Nat × Nat) :=
  ((typesOf stream).map fun rt =>
    ((mux stream).origins rt).map (fun o => (o.key, o.docId, o.sub))).flatten

/-- The full core pipeline from the Builder stream to the response queue. -/
def pipelineQueue (cfg : ExecCfg) (bk : Backend ρ) (stream : List DocEntry) :
    Except (ExecErr ⊕ RecErr) (List (Key × QEntry ρ)) :=
  match execAll cfg bk (typesOf stream) ((mux stream).requests) with
  | .error e => .error (.inl e)
  | .ok typed =>
      match reconcileAll ((mux stream).origins) typed with
      | .error e => .error (.inr e)
      | .ok q => .ok q

/-! ### Scorer & Aggregator (lines 388-418) -/

/-- One `(task_template_key, metric)` row: the point estimate and the
optional `metric + "_stderr"` entry. -/
structure MetricRow (V : Type) where
  point : V
  stderrE : Option V
deriving DecidableEq

/-- The aggregation stage for one `(task_template_key, metric)` pair
(lines 395-418): the task's reduction is applied once for the
`results[task_template_key]` table row and once again for the
`_metric_results` record, and when `stderr_for_metric` returns an estimator
it too is applied once for each. The first component is the `table_results`
row, the second the row appended to `metric_results`. -/
def aggregateOne (agg : List V → V) (stderrFn : Option (List V → Option V))
    (items : List V) : MetricRow V × MetricRow V :=
  match stderrFn with
  | none => (⟨agg items, none⟩, ⟨agg items, none⟩)
  | some s => (⟨agg items, s items⟩, ⟨agg items, s items⟩)

/-- Modelled from the spec: the uncertainty estimator built by
`lm_eval.api.metric.stderr_for_metric` (file `lm_eval/api/metric.py`, which
is not under `src/`). Per the spec it reduces `bootstrap_iters` resamples
and reports the standard deviation of the resample distribution, with the
degenerate case "fewer than 2 values ⇒ standard error is undefined/omitted,
not zero"; the numeric estimate on two or more values is kept abstract as
the parameter `est`. -/
def specStderr (est : (List V → V) → Nat → List V → V) (reduce : List V → V)
    (iters : Nat) (items : List V) : Option V :=
  if items.length < 2 then none else some (est reduce iters items)

/-! ### Document preparation (lines 215-243), for the determinism claim -/

/-- The external collaborators of the preparation stage as deterministic
functions threaded through an explicit generator state `σ`, mirroring
`task_docs.shuffle(generator=rng)` and `task.fewshot_context(..., rng=rng)`:
`invalid` is `task.invalid_doc_for_prompt`, `shuffleF` the dataset shuffle,
`fewshotF` the few-shot context sampler (its `Nat` output stands for the
built context), `buildF` is `task.construct_requests`, over raw documents
`α` paired with their pre-filter index (the mapped `doc_id` column). -/
structure PrepParams (σ α : Type) where
  invalid : α → Bool
  shuffleF : σ → List (Nat × α) → List (Nat × α) × σ
  fewshotF : σ → α → Nat × σ
  buildF : α → Nat → List PreReq

/-- The `for doc_id, doc in enumerate(...)` loop of lines 230-254, restricted
to its document-preparation effects: `doc_id` is the enumeration index and
the generator state is consumed in document order. -/
def prepGo (p : PrepParams σ α) (key : String) :
    Nat → σ → List (Nat × α) → List DocEntry × σ
  | _, rng, [] => ([], rng)
  | i, rng, q :: qs =>
      let m := p.fewshotF rng q.2
      let rest := prepGo p key (i + 1) m.2 qs
      (⟨key, i, q.1, m.1, p.buildF q.2 m.1⟩ :: rest.1, rest.2)

/-- Preparation of one task's documents (lines 215-243): assign pre-filter
ids, filter invalid docs, shuffle with the shared generator, apply the
`islice` limit, then walk the documents in order. -/
def prepDocs (p : PrepParams σ α) (limit : Option Nat) (key : String)
    (raw : List α) (rng : σ) : List DocEntry × σ :=
  let kept := raw.enum.filter (fun q => ! p.invalid q.2)
  let sh := p.shuffleF rng kept
  let limited := match limit with | none => sh.1 | some m => sh.1.take m
  prepGo p key 0 sh.2 limited

/-- Preparation of the whole run: tasks in order, one shared generator. -/
def prepAll (p : PrepParams σ α) (limit : Option Nat) :
    σ → List (String × List α) → List DocEntry
  | _, [] => []
  | rng, (key, raw) :: rest =>
      let d := prepDocs p limit key raw rng
      d.1 ++ prepAll p limit d.2 rest

/-- The request batches of a run, per type, as the prepared `DataLoader`s
yield them (`shuffle=False`): contiguous chunks of the per-type request
list, padded first under distributed execution. -/
def runBatches (p : PrepParams σ α) (limit : Option Nat) (cfg : ExecCfg)
    (seed : σ) (tasks : List (String × List α)) (rt : RT) : List (List Req) :=
  let reqs := (mux (prepAll p limit seed tasks)).requests rt
  if cfg.dist then chunks (cfg.W * cfg.B) (padStream (cfg.W * cfg.B) reqs)
  else chunks cfg.B reqs

/-- The final per-document response ordering of a run: every bucket's Result
Bundle, buckets in queue insertion order. -/
def runBundles (p : PrepParams σ α) (limit : Option Nat) (cfg : ExecCfg)
    (bk : Backend ρ) (seed : σ) (tasks : List (String × List α)) :
    Except (ExecErr ⊕ RecErr) (List (Key × List (RVal ρ))) :=
  match pipelineQueue cfg bk (prepAll p limit seed tasks) with
  | .error e => .error e
  | .ok q => .ok ((keysOf q).map fun k => (k, bundle (bucketOf q k)))

/-! ### List infrastructure lemmas -/

theorem chunksGo_flatten (k : Nat) :
    ∀ (fuel : Nat) (l : List α), (chunksGo k fuel l).flatten = l := by
  intro fuel
  induction fuel with
  | zero =>
      intro l
      cases l with
      | nil => rfl
      | cons a l => simp [chunksGo]
  | succ fuel ih =>
      intro l
      cases l with
      | nil => rfl
      | cons a l =>
          rw [chunksGo]
          simp only [List.flatten_cons]
          rw [ih ((a :: l).drop k)]
          exact List.take_append_drop _ _

theorem chunks_flatten (k : Nat) (l : List α) : (chunks k l).flatten = l :=
  chunksGo_flatten k l.length l

theorem chunksGo_fuel_irrel (k : Nat) (hk : 1 ≤ k) :
    ∀ (fuel fuel2 : Nat) (l : List α), l.length ≤ fuel →
      l.length ≤ fuel2 → chunksGo k fuel l = chunksGo k fuel2 l := by
  intro fuel
  induction fuel with
  | zero =>
      intro fuel2 l h1 _
      cases l with
      | nil =>
          cases fuel2 with
          | zero => rfl
          | succ f2 => rfl
      | cons a l => simp at h1
  | succ fuel ih =>
      intro fuel2 l h1 h2
      cases l with
      | nil =>
          cases fuel2 with
          | zero => rfl
          | succ f2 => rfl
      | cons a l =>
          cases fuel2 with
          | zero => simp at h2
          | succ f2 =>
              rw [chunksGo, chunksGo]
              congr 1
              refine ih f2 ((a :: l).drop k) ?_ ?_
              · rw [List.length_drop]
                simp only [List.length_cons] at h1 ⊢
                omega
              · rw [List.length_drop]
                simp only [List.length_cons] at h2 ⊢
                omega

theorem chunks_cons_of_ne_nil (k : Nat) (l : List α) (h : l ≠ []) :
    chunks (k + 1) l = l.take (k + 1) :: chunks (k + 1) (l.drop (k + 1)) := by
  match l with
  | [] => exact absurd rfl h
  | a :: l =>
      show chunksGo (k + 1) (a :: l).length (a :: l) = _
      rw [show (a :: l).length = l.length + 1 from rfl, chunksGo]
      congr 1
      refine chunksGo_fuel_irrel (k + 1) (by omega) l.length _
        ((a :: l).drop (k + 1)) ?_ ?_
      · rw [List.length_drop]
        simp only [List.length_cons]
        omega
      · exact Nat.le_refl _

theorem flatten_map_map (g : α → β) :
    ∀ L : List (List α), (L.map (fun b => b.map g)).flatten = L.flatten.map g := by
  intro L
  induction L with
  | nil => rfl
  | cons b L ih =>
      simp only [List.map_cons, List.flatten_cons, List.map_append, ih]

theorem keepFirstBy_all_seen [DecidableEq κ] (key : α → κ) (seen : List κ) :
    ∀ (l : List α), (∀ x ∈ l, key x ∈ seen) → keepFirstBy key seen l = [] := by
  intro l
  induction l with
  | nil => intro _; rfl
  | cons x xs ih =>
      intro h
      rw [keepFirstBy, if_pos (h x (by simp))]
      exact ih (fun y hy => h y (by simp [hy]))

theorem keepFirstBy_nodup_id [DecidableEq κ] (key : α → κ) :
    ∀ (l : List α) (seen : List κ), (l.map key).Nodup →
      (∀ x ∈ l, key x ∉ seen) → keepFirstBy key seen l = l := by
  intro l
  induction l with
  | nil => intro seen _ _; rfl
  | cons x xs ih =>
      intro seen hn hd
      rw [keepFirstBy, if_neg (hd x (by simp))]
      simp only [List.map_cons, List.nodup_cons] at hn
      congr 1
      refine ih (key x :: seen) hn.2 ?_
      intro y hy
      simp only [List.mem_cons]
      push_neg
      refine ⟨?_, hd y (by simp [hy])⟩
      intro hk
      exact hn.1 (hk ▸ List.mem_map_of_mem key hy)

theorem keepFirstBy_covered [DecidableEq κ] (key : α → κ) :
    ∀ (xs : List α) (ys : List α) (seen : List κ), (xs.map key).Nodup →
      (∀ x ∈ xs, key x ∉ seen) →
      (∀ y ∈ ys, key y ∈ seen ∨ key y ∈ xs.map key) →
      keepFirstBy key seen (xs ++ ys) = xs := by
  intro xs
  induction xs with
  | nil =>
      intro ys seen _ _ hy
      refine keepFirstBy_all_seen key seen ys ?_
      intro y hmem
      rcases hy y hmem with h | h
      · exact h
      · simp at h
  | cons x xs ih =>
      intro ys seen hn hd hy
      rw [List.cons_append, keepFirstBy, if_neg (hd x (by simp))]
      simp only [List.map_cons, List.nodup_cons] at hn
      congr 1
      refine ih ys (key x :: seen) hn.2 ?_ ?_
      · intro y hmem
        simp only [List.mem_cons]
        push_neg
        refine ⟨?_, hd y (by simp [hmem])⟩
        intro hk
        exact hn.1 (hk ▸ List.mem_map_of_mem key hmem)
      · intro y hmem
        rcases hy y hmem with h | h
        · exact Or.inl (by simp [h])
        · simp only [List.map_cons, List.mem_cons] at h
          rcases h with h | h
          · exact Or.inl (by simp [h])
          · exact Or.inr h

theorem keepFirstBy_map [DecidableEq κ] (key : β → κ) (f : α → β) :
    ∀ (l : List α) (seen : List κ),
      keepFirstBy key seen (l.map f) =
        (keepFirstBy (fun x => key (f x)) seen l).map f := by
  intro l
  induction l with
  | nil => intro seen; rfl
  | cons x xs ih =>
      intro seen
      simp only [List.map_cons, keepFirstBy]
      by_cases h : key (f x) ∈ seen
      · rw [if_pos h, if_pos h, ih]
      · rw [if_neg h, if_neg h, List.map_cons, ih]

theorem keepFirstBy_congr_keys [DecidableEq κ] (key1 key2 : α → κ) :
    ∀ (l : List α) (seen : List κ), (∀ x, key1 x = key2 x) →
      keepFirstBy key1 seen l = keepFirstBy key2 seen l := by
  intro l
  induction l with
  | nil => intro seen _; rfl
  | cons x xs ih =>
      intro seen h
      simp only [keepFirstBy, h x]
      by_cases hm : key2 x ∈ seen
      · rw [if_pos hm, if_pos hm, ih _ h]
      · rw [if_neg hm, if_neg hm, ih _ h]

theorem keepFirstBy_seen_congr [DecidableEq κ] (key : α → κ) :
    ∀ (l : List α) (seen1 seen2 : List κ),
      (∀ x ∈ l, (key x ∈ seen1 ↔ key x ∈ seen2)) →
      keepFirstBy key seen1 l = keepFirstBy key seen2 l := by
  intro l
  induction l with
  | nil => intro seen1 seen2 _; rfl
  | cons x xs ih =>
      intro seen1 seen2 h
      simp only [keepFirstBy]
      by_cases hm : key x ∈ seen1
      · rw [if_pos hm, if_pos ((h x (by simp)).1 hm)]
        exact ih seen1 seen2 (fun y hy => h y (by simp [hy]))
      · rw [if_neg hm, if_neg (fun hc => hm ((h x (by simp)).2 hc))]
        congr 1
        refine ih (key x :: seen1) (key x :: seen2) ?_
        intro y hy
        simp only [List.mem_cons]
        have := h y (by simp [hy])
        tauto

theorem keepFirstBy_seen_irrel [DecidableEq κ] (key : α → κ) (c : κ)
    (l : List α) (seen : List κ) (h : ∀ x ∈ l, key x ≠ c) :
    keepFirstBy key (c :: seen) l = keepFirstBy key seen l := by
  refine keepFirstBy_seen_congr key l (c :: seen) seen ?_
  intro x hx
  simp only [List.mem_cons]
  have := h x hx
  tauto

theorem keepFirstBy_filter_comm [DecidableEq κ] (key : α → κ) (P : α → Bool) :
    ∀ (l : List α) (seen : List κ),
      (∀ x ∈ l, ∀ y ∈ l, key x = key y → P x = P y) →
      keepFirstBy key seen (l.filter P) =
        (keepFirstBy key seen l).filter P := by
  intro l
  induction l with
  | nil => intro seen _; rfl
  | cons x xs ih =>
      intro seen hcomp
      have hcomp' : ∀ a ∈ xs, ∀ b ∈ xs, key a = key b → P a = P b := by
        intro a ha b hb
        exact hcomp a (by simp [ha]) b (by simp [hb])
      by_cases hp : P x
      · rw [List.filter_cons_of_pos hp]
        simp only [keepFirstBy]
        by_cases hm : key x ∈ seen
        · rw [if_pos hm, if_pos hm, ih seen hcomp']
        · rw [if_neg hm, if_neg hm, List.filter_cons_of_pos hp]
          congr 1
          exact ih (key x :: seen) hcomp'
      · rw [List.filter_cons_of_neg hp]
        simp only [keepFirstBy]
        by_cases hm : key x ∈ seen
        · rw [if_pos hm, ih seen hcomp']
        · rw [if_neg hm, List.filter_cons_of_neg hp]
          have hnone : ∀ y ∈ xs.filter P, key y ≠ key x := by
            intro y hy hk
            obtain ⟨hyxs, hPy⟩ := List.mem_filter.1 hy
            have heq := hcomp y (by simp [hyxs]) x (by simp) hk
            rw [hPy] at heq
            exact hp heq.symm
          calc keepFirstBy key seen (xs.filter P)
              = keepFirstBy key (key x :: seen) (xs.filter P) :=
                (keepFirstBy_seen_irrel key (key x) (xs.filter P) seen hnone).symm
            _ = (keepFirstBy key (key x :: seen) xs).filter P :=
                ih (key x :: seen) hcomp'

theorem keepFirstBy_sublist [DecidableEq κ] (key : α → κ) :
    ∀ (l : List α) (seen : List κ), (keepFirstBy key seen l).Sublist l := by
  intro l
  induction l with
  | nil => intro seen; exact List.Sublist.refl []
  | cons x xs ih =>
      intro seen
      rw [keepFirstBy]
      by_cases hm : key x ∈ seen
      · rw [if_pos hm]; exact (ih seen).cons x
      · rw [if_neg hm]; exact (ih (key x :: seen)).cons₂ x

theorem keepFirstBy_keys_nodup [DecidableEq κ] (key : α → κ) :
    ∀ (l : List α) (seen : List κ),
      ((keepFirstBy key seen l).map key).Nodup ∧
        (∀ x ∈ keepFirstBy key seen l, key x ∉ seen) := by
  intro l
  induction l with
  | nil => intro seen; exact ⟨List.nodup_nil, by simp [keepFirstBy]⟩
  | cons x xs ih =>
      intro seen
      rw [keepFirstBy]
      by_cases hm : key x ∈ seen
      · rw [if_pos hm]; exact ih seen
      · rw [if_neg hm]
        obtain ⟨h1, h2⟩ := ih (key x :: seen)
        constructor
        · simp only [List.map_cons, List.nodup_cons]
          refine ⟨?_, h1⟩
          intro hmem
          obtain ⟨y, hy, hk⟩ := List.mem_map.1 hmem
          exact h2 y hy (by simp [hk])
        · intro y hy
          simp only [List.mem_cons] at hy
          rcases hy with rfl | hy
          · exact hm
          · intro hc
            exact h2 y hy (by simp [hc])

theorem dedupFirst_nodup [DecidableEq α] (l : List α) : (dedupFirst l).Nodup := by
  have h := (keepFirstBy_keys_nodup (id : α → α) l []).1
  simpa using h

theorem keepFirstBy_key_reached [DecidableEq κ] (key : α → κ) :
    ∀ (l : List α) (seen : List κ) (x : α), x ∈ l →
      key x ∈ seen ∨ ∃ y ∈ keepFirstBy key seen l, key y = key x := by
  intro l
  induction l with
  | nil => intro seen x h; simp at h
  | cons a as ih =>
      intro seen x h
      rw [keepFirstBy]
      by_cases hm : key a ∈ seen
      · rw [if_pos hm]
        rcases List.mem_cons.1 h with he | h2
        · exact Or.inl (he ▸ hm)
        · exact ih seen x h2
      · rw [if_neg hm]
        rcases List.mem_cons.1 h with he | h2
        · exact Or.inr ⟨a, List.mem_cons_self _ _, by rw [he]⟩
        · rcases ih (key a :: seen) x h2 with hs | ⟨y, hy, hk⟩
          · rcases List.mem_cons.1 hs with he2 | hs2
            · exact Or.inr ⟨a, List.mem_cons_self _ _, he2.symm⟩
            · exact Or.inl hs2
          · exact Or.inr ⟨y, List.mem_cons_of_mem _ hy, hk⟩

theorem mem_dedupFirst [DecidableEq α] {l : List α} {x : α} :
    x ∈ dedupFirst l ↔ x ∈ l := by
  constructor
  · intro h
    exact (keepFirstBy_sublist id l []).mem h
  · intro h
    rcases keepFirstBy_key_reached id l [] x h with hs | ⟨y, hy, hk⟩
    · simp at hs
    · have hyx : y = x := hk
      exact hyx ▸ hy

theorem partition_perm [DecidableEq κ] (keyP : α → κ) :
    ∀ (ks : List κ) (S : List α), ks.Nodup → (∀ x ∈ S, keyP x ∈ ks) →
      ((ks.map fun k => S.filter (fun x => keyP x = k)).flatten).Perm S := by
  intro ks
  induction ks with
  | nil =>
      intro S _ hcov
      match S with
      | [] => simp
      | x :: _ => exact absurd (hcov x (by simp)) (by simp)
  | cons k ks ih =>
      intro S hnd hcov
      simp only [List.map_cons, List.flatten_cons]
      obtain ⟨hk, hnd'⟩ := List.nodup_cons.1 hnd
      have hsplit := List.filter_append_perm (fun x => decide (keyP x = k)) S
      refine List.Perm.trans ?_ hsplit
      refine List.Perm.append_left _ ?_
      have hrw : ∀ k' ∈ ks,
          S.filter (fun x => keyP x = k') =
            (S.filter (fun x => !decide (keyP x = k))).filter
              (fun x => keyP x = k') := by
        intro k' hk'
        have hkk : ¬ k' = k := fun hc => hk (hc ▸ hk')
        rw [List.filter_filter]
        refine (List.filter_congr ?_).symm
        intro x _
        by_cases hx : keyP x = k'
        · have hxk : ¬ keyP x = k := by rw [hx]; exact hkk
          simp [hx, hxk, hkk]
        · simp [hx]
      have hmap : (ks.map fun k' => S.filter (fun x => keyP x = k')) =
          ks.map fun k' =>
            (S.filter (fun x => !decide (keyP x = k))).filter
              (fun x => keyP x = k') :=
        List.map_congr_left hrw
      rw [hmap]
      refine ih _ hnd' ?_
      intro x hx
      obtain ⟨hxS, hxk⟩ := List.mem_filter.1 hx
      have := hcov x hxS
      simp only [List.mem_cons] at this
      rcases this with he | hin
      · simp [he] at hxk
      · exact hin

theorem withUids_get? :
    ∀ (l : List Tagged) (b i : Nat),
      (withUids b l).get? i =
        (l.get? i).map (fun t => (⟨t.rt, t.retIdx, t.docId, b + i⟩ : Req)) := by
  intro l
  induction l with
  | nil => intro b i; simp [withUids]
  | cons t ts ih =>
      intro b i
      match i with
      | 0 => simp [withUids]
      | i + 1 =>
          simp only [withUids, List.get?_cons_succ, ih (b + 1) i]
          match ts.get? i with
          | none => rfl
          | some u => simp [Nat.add_comm, Nat.add_assoc, Nat.add_left_comm]

theorem withUids_map_uid :
    ∀ (l : List Tagged) (b : Nat),
      (withUids b l).map (fun r => r.uid) = List.range' b l.length := by
  intro l
  induction l with
  | nil => intro b; rfl
  | cons t ts ih =>
      intro b
      simp only [withUids, List.map_cons, ih (b + 1), List.length_cons]
      rfl

theorem withUids_uid_nodup (l : List Tagged) (b : Nat) :
    ((withUids b l).map (fun r => r.uid)).Nodup := by
  rw [withUids_map_uid]
  apply List.nodup_range'
  exact Nat.one_pos

theorem withUids_mem {l : List Tagged} {b : Nat} {r : Req} :
    r ∈ withUids b l → ∃ i t, l.get? i = some t ∧
      r = (⟨t.rt, t.retIdx, t.docId, b + i⟩ : Req) := by
  intro h
  obtain ⟨⟨i, hi⟩, hget⟩ := List.mem_iff_get.1 h
  have hsome : (withUids b l).get? i = some r := by
    rw [List.get?_eq_get hi, hget]
  refine ⟨i, ?_⟩
  have hw := withUids_get? l b i
  rw [hsome] at hw
  cases hl : l.get? i with
  | none =>
      rw [hl] at hw
      exact absurd hw (by simp)
  | some t =>
      rw [hl] at hw
      have hr : r = (fun t : Tagged =>
          (⟨t.rt, t.retIdx, t.docId, b + i⟩ : Req)) t :=
        Option.some_injective _ hw
      exact ⟨t, rfl, hr⟩

theorem padLen_lt (G n : Nat) (h : 1 ≤ G) : padLen G n < G :=
  Nat.mod_lt _ (by omega)

theorem pad_exists_mul (G n : Nat) (h : 1 ≤ G) :
    ∃ m, n + padLen G n = m * G := by
  rcases Nat.eq_zero_or_pos (n % G) with h0 | hpos
  · refine ⟨n / G, ?_⟩
    have hp0 : padLen G n = 0 := by
      unfold padLen
      rw [h0, Nat.sub_zero, Nat.mod_self]
    rw [hp0, Nat.add_zero]
    exact (Nat.div_mul_cancel (Nat.dvd_of_mod_eq_zero h0)).symm
  · have hlt : n % G < G := Nat.mod_lt _ (by omega)
    have hp : padLen G n = G - n % G := by
      unfold padLen
      exact Nat.mod_eq_of_lt (by omega)
    refine ⟨n / G + 1, ?_⟩
    rw [hp]
    have hqr := Nat.div_add_mod n G
    have hr : (n / G + 1) * G = G * (n / G) + G := by ring
    rw [hr]
    generalize hA : G * (n / G) = A at hqr
    generalize hB : n % G = r at hqr hlt ⊢
    omega

theorem cyclePad_mem {reqs : List Req} {p : Nat} {x : Req} :
    x ∈ (List.replicate p reqs).flatten.take p → x ∈ reqs := by
  intro h
  have h2 := (List.take_sublist p _).mem h
  obtain ⟨l, hl, hx⟩ := List.mem_flatten.1 h2
  rwa [List.eq_of_mem_replicate hl] at hx

theorem cyclePad_length (reqs : List Req) (p : Nat) (h : reqs ≠ []) :
    ((List.replicate p reqs).flatten.take p).length = p := by
  rw [List.length_take]
  have hlen : (List.replicate p reqs).flatten.length = p * reqs.length := by
    simp [List.length_flatten, List.map_replicate, List.sum_replicate, Nat.smul_one_eq_cast]
  rw [hlen]
  have h1 : 1 ≤ reqs.length := by
    cases reqs with
    | nil => exact absurd rfl h
    | cons a l => simp
  exact Nat.min_eq_left (Nat.le_mul_of_pos_right p (by omega))

theorem execLoop_chunks (f0 f1 : Req → ρ) (n : Nat) (G : Nat) (hG : 2 ≤ G) :
    ∀ (m : Nat) (l : List Req), l.length = (m + 1) * G → ∀ (seen : Int),
      execLoop f0 f1 n seen (chunks G l) =
        (l.take (m * G)).map (mkPair f0 f1) ++
          execLast f0 f1 ((n : Int) - (seen + 2 * m)) (l.drop (m * G)) := by
  intro m
  induction m with
  | zero =>
      intro l hlen seen
      obtain ⟨k, hk⟩ : ∃ k, G = k + 1 := ⟨G - 1, by omega⟩
      have hne : l ≠ [] := by
        intro hc
        rw [hc] at hlen
        simp at hlen
        omega
      rw [hk, chunks_cons_of_ne_nil _ _ hne]
      have hdrop : l.drop (k + 1) = [] := by
        rw [List.drop_eq_nil_iff]
        omega
      rw [hdrop]
      have htake : l.take (k + 1) = l := by
        rw [List.take_of_length_le]
        omega
      rw [htake]
      simp only [chunks, chunksGo, execLoop]
      simp
  | succ m ih =>
      intro l hlen seen
      obtain ⟨k, hk⟩ : ∃ k, G = k + 1 := ⟨G - 1, by omega⟩
      have hne : l ≠ [] := by
        intro hc
        rw [hc] at hlen
        simp at hlen
        omega
      have hdlen : (l.drop G).length = (m + 1) * G := by
        rw [List.length_drop, hlen]
        ring_nf
        omega
      have hdne : l.drop G ≠ [] := by
        intro hc
        rw [hc] at hdlen
        simp at hdlen
        omega
      rw [hk, chunks_cons_of_ne_nil _ _ hne]
      rw [chunks_cons_of_ne_nil _ _ (hk ▸ hdne)]
      rw [execLoop]
      rw [← chunks_cons_of_ne_nil _ _ (hk ▸ hdne), ← hk]
      rw [ih (l.drop G) hdlen (seen + 2)]
      have ht : l.take G ++ (l.drop G).take (m * G) = l.take ((m + 1) * G) := by
        rw [← List.take_add]
        congr 1
        ring
      have hd : (l.drop G).drop (m * G) = l.drop ((m + 1) * G) := by
        rw [List.drop_drop]
        congr 1
        ring
      rw [← List.append_assoc, ← List.map_append, ht, hd]
      congr 2
      push_cast
      ring

/-! ### Executor characterization -/

theorem pyTupleKeep_of_ge2 (k : Int) (h : 2 ≤ k) : pyTupleKeep k = 2 := by
  unfold pyTupleKeep
  rw [if_neg (by omega)]
  omega

theorem pyTupleKeep_of_eq1 (k : Int) (h : k = 1) : pyTupleKeep k = 1 := by
  subst h
  rfl

theorem execType_nondist (cfg : ExecCfg) (hd : cfg.dist = false)
    (f0 f1 : Req → ρ) (reqs : List Req) :
    execType cfg f0 f1 reqs = reqs.map (mkPair f0 f1) := by
  simp only [execType, hd, Bool.false_eq_true, if_false]
  rw [flatten_map_map, chunks_flatten]

theorem execType_dist_cases (cfg : ExecCfg) (hd : cfg.dist = true)
    (hG : 2 ≤ cfg.W * cfg.B) (f0 f1 : Req → ρ) (reqs : List Req)
    (hne : reqs ≠ []) :
    (∃ pads : List Req, (∀ x ∈ pads, x ∈ reqs) ∧
        execType cfg f0 f1 reqs = (reqs ++ pads).map (mkPair f0 f1)) ∨
    (∃ r pads, pads ≠ [] ∧ (∀ x ∈ pads, x ∈ reqs) ∧
        reqs.dropLast ++ [r] = reqs ∧
        execType cfg f0 f1 reqs =
          (reqs.dropLast).map (mkPair f0 f1) ++
            [⟨r.uid, r.docId, .streamv ((r :: pads).map f0)⟩]) := by
  have hn1 : 1 ≤ reqs.length := by
    cases reqs with
    | nil => exact absurd rfl hne
    | cons a l => simp
  set G := cfg.W * cfg.B with hGdef
  set n := reqs.length with hndef
  set p := padLen G n with hpdef
  set pads0 := (List.replicate p reqs).flatten.take p with hpads0
  have hplen : pads0.length = p := cyclePad_length reqs p hne
  have hpmem : ∀ x ∈ pads0, x ∈ reqs := fun x hx => cyclePad_mem hx
  have hps : padStream G reqs = reqs ++ pads0 := rfl
  have hlp : (reqs ++ pads0).length = n + p := by
    rw [List.length_append, hplen]
  obtain ⟨m, hm⟩ := pad_exists_mul G n (by omega)
  have hm1 : 1 ≤ m := by
    by_contra hc
    push_neg at hc
    interval_cases m
    omega
  have hplt : p < G := padLen_lt G n (by omega)
  have hlow : (m - 1) * G < n := by
    have h1 : m * G = n + p := hm.symm
    have h2 : (m - 1) * G + G = m * G := by
      have : m - 1 + 1 = m := by omega
      calc (m - 1) * G + G = ((m - 1) + 1) * G := by ring
        _ = m * G := by rw [this]
    omega
  set c : Int := (n : Int) - (0 + 2 * ((m - 1 : Nat) : Int)) with hcdef
  have hexec : execType cfg f0 f1 reqs =
      ((reqs ++ pads0).take ((m - 1) * G)).map (mkPair f0 f1) ++
        execLast f0 f1 c ((reqs ++ pads0).drop ((m - 1) * G)) := by
    simp only [execType, hd, if_true]
    rw [hps]
    have hlen2 : (reqs ++ pads0).length = ((m - 1) + 1) * G := by
      rw [hlp, hm]
      congr 1
      omega
    exact execLoop_chunks f0 f1 n G hG (m - 1) (reqs ++ pads0) hlen2 0
  have h2m : 2 * (m - 1) < n := by
    have : (m - 1) * 2 ≤ (m - 1) * G := Nat.mul_le_mul_left _ hG
    omega
  rcases Nat.lt_or_ge (2 * (m - 1) + 1) n with hbig | hsmall
  · -- at least two samples remain: the tuple slice keeps both streams
    left
    refine ⟨pads0, hpmem, ?_⟩
    rw [hexec]
    have hkeep : pyTupleKeep c = 2 := by
      refine pyTupleKeep_of_ge2 c ?_
      rw [hcdef]
      push_cast
      omega
    unfold execLast
    rw [hkeep]
    rw [if_pos (by omega)]
    rw [← List.map_append, List.take_append_drop]
  · -- exactly one sample remains: the tuple slice keeps only stream 0
    right
    have hceq : n = 2 * (m - 1) + 1 := by omega
    have hmg : (m - 1) * G = n - 1 := by
      have hge : n - 1 ≤ (m - 1) * G := by
        have : (m - 1) * 2 ≤ (m - 1) * G := Nat.mul_le_mul_left _ hG
        omega
      omega
    have hdlen : (reqs.drop (n - 1)).length = 1 := by
      rw [List.length_drop]
      omega
    obtain ⟨r, hr⟩ := List.length_eq_one.1 hdlen
    have hsplitr : reqs.dropLast ++ [r] = reqs := by
      rw [List.dropLast_eq_take, ← hr, ← hndef]
      exact List.take_append_drop _ _
    have hAB : m * G = (m - 1) * G + G := by
      have h1 : m - 1 + 1 = m := by omega
      calc m * G = (m - 1 + 1) * G := by rw [h1]
        _ = (m - 1) * G + G := by ring
    have hpne : pads0 ≠ [] := by
      intro hc
      have hp0 : p = 0 := by rw [← hplen, hc]; rfl
      omega
    refine ⟨r, pads0, hpne, hpmem, hsplitr, ?_⟩
    rw [hexec]
    have hkeep : pyTupleKeep c = 1 := by
      refine pyTupleKeep_of_eq1 c ?_
      rw [hcdef]
      push_cast
      omega
    have htake : (reqs ++ pads0).take ((m - 1) * G) = reqs.dropLast := by
      rw [List.take_append_eq_append_take, hmg]
      have h0 : n - 1 - reqs.length = 0 := by omega
      rw [← hndef, h0, List.take_zero, List.append_nil, List.dropLast_eq_take]
    have hdrop : (reqs ++ pads0).drop ((m - 1) * G) = r :: pads0 := by
      rw [List.drop_append_eq_append_drop, hmg]
      have h0 : n - 1 - reqs.length = 0 := by omega
      rw [← hndef, h0, List.drop_zero, hr, List.cons_append, List.nil_append]
    rw [htake, hdrop]
    unfold execLast
    rw [hkeep]
    rw [if_neg (by omega), if_pos rfl]

theorem exec_covered (cfg : ExecCfg) (f0 f1 : Req → ρ) (reqs : List Req)
    (hG : cfg.dist = true → 2 ≤ cfg.W * cfg.B)
    (hnd : (reqs.map (fun r => r.uid)).Nodup) :
    (keepFirstBy (fun t => t.uid) [] (execType cfg f0 f1 reqs)).map
        (fun t => (t.uid, t.docId)) =
      reqs.map (fun r => (r.uid, r.docId)) ∧
    ∀ t ∈ execType cfg f0 f1 reqs,
      (∃ r ∈ reqs, t.uid = r.uid ∧ t.docId = r.docId) ∧
      ((∃ a b, t.val = RVal.pairv a b) ∨
        (∃ s, t.val = RVal.streamv s ∧ 2 ≤ s.length)) := by
  have hkeymap : ∀ (l : List Req),
      ((l.map (mkPair f0 f1)).map (fun t => t.uid)) = l.map (fun r => r.uid) := by
    intro l
    rw [List.map_map]
    rfl
  rcases hcne : reqs with _ | ⟨q, qs⟩
  · have hempty : execType cfg f0 f1 [] = [] := by
      unfold execType
      cases cfg.dist
      · simp [chunks, chunksGo]
      · simp [padStream, padLen, chunks, chunksGo, execLoop]
    rw [hempty]
    constructor
    · rfl
    · intro t ht
      simp at ht
  · rw [← hcne]
    have hne : reqs ≠ [] := by rw [hcne]; simp
    rcases hdist : cfg.dist with hfalse | htrue
    · -- non-distributed
      rw [execType_nondist cfg hdist f0 f1 reqs]
      constructor
      · rw [keepFirstBy_nodup_id _ _ _ (by rw [hkeymap]; exact hnd) (by simp)]
        rw [List.map_map]
        rfl
      · intro t ht
        obtain ⟨r, hr, hrt⟩ := List.mem_map.1 ht
        refine ⟨⟨r, hr, by rw [← hrt]; exact ⟨rfl, rfl⟩⟩, ?_⟩
        exact Or.inl ⟨f0 r, f1 r, by rw [← hrt]; rfl⟩
    · rcases execType_dist_cases cfg hdist (hG hdist) f0 f1 reqs hne with
        ⟨pads, hpm, hpe⟩ | ⟨r, pads, hpne, hpm, hsplit, hpe⟩
      · rw [hpe, List.map_append]
        constructor
        · rw [keepFirstBy_covered (fun t => t.uid) (reqs.map (mkPair f0 f1))
            (pads.map (mkPair f0 f1)) [] (by rw [hkeymap]; exact hnd) (by simp) ?_]
          · rw [List.map_map]; rfl
          · intro y hy
            obtain ⟨x, hx, hxy⟩ := List.mem_map.1 hy
            right
            rw [hkeymap]
            rw [← hxy]
            exact List.mem_map_of_mem _ (hpm x hx)
        · intro t ht
          rcases List.mem_append.1 ht with h | h
          · obtain ⟨x, hx, hxt⟩ := List.mem_map.1 h
            exact ⟨⟨x, hx, by rw [← hxt]; exact ⟨rfl, rfl⟩⟩,
              Or.inl ⟨f0 x, f1 x, by rw [← hxt]; rfl⟩⟩
          · obtain ⟨x, hx, hxt⟩ := List.mem_map.1 h
            exact ⟨⟨x, hpm x hx, by rw [← hxt]; exact ⟨rfl, rfl⟩⟩,
              Or.inl ⟨f0 x, f1 x, by rw [← hxt]; rfl⟩⟩
      · rw [hpe]
        have hrmem : r ∈ reqs := by
          rw [← hsplit]
          exact List.mem_append.2 (Or.inr (by simp))
        have hkeys : ((reqs.dropLast.map (mkPair f0 f1) ++
            [(⟨r.uid, r.docId, RVal.streamv ((r :: pads).map f0)⟩ : Triple ρ)]).map
              (fun t => t.uid)).Nodup := by
          rw [List.map_append, hkeymap]
          have : reqs.dropLast.map (fun r => r.uid) ++
              [(⟨r.uid, r.docId, RVal.streamv ((r :: pads).map f0)⟩ : Triple ρ)].map
                (fun t => t.uid) =
              (reqs.dropLast ++ [r]).map (fun r => r.uid) := by
            simp
          rw [this, hsplit]
          exact hnd
        constructor
        · rw [keepFirstBy_nodup_id _ _ _ hkeys (by simp)]
          rw [List.map_append, List.map_map]
          have hfun : reqs.dropLast.map
                ((fun t : Triple ρ => (t.uid, t.docId)) ∘ mkPair f0 f1) =
              reqs.dropLast.map (fun x : Req => (x.uid, x.docId)) :=
            List.map_congr_left (fun a _ => rfl)
          rw [hfun]
          conv_rhs => rw [← hsplit, List.map_append]
          rfl
        · intro t ht
          rcases List.mem_append.1 ht with h | h
          · obtain ⟨x, hx, hxt⟩ := List.mem_map.1 h
            exact ⟨⟨x, (List.dropLast_sublist reqs).mem hx,
                by rw [← hxt]; exact ⟨rfl, rfl⟩⟩,
              Or.inl ⟨f0 x, f1 x, by rw [← hxt]; rfl⟩⟩
          · have hts : t = ⟨r.uid, r.docId, RVal.streamv ((r :: pads).map f0)⟩ := by
              simpa using h
            refine ⟨⟨r, hrmem, by rw [hts]; exact ⟨rfl, rfl⟩⟩, Or.inr ?_⟩
            refine ⟨(r :: pads).map f0, by rw [hts], ?_⟩
            rw [List.length_map, List.length_cons]
            have : 1 ≤ pads.length := by
              cases pads with
              | nil => exact absurd rfl hpne
              | cons a l => simp
            omega


/-! ### Reconciler characterization -/

/-- Total companion of `reconStep`: its value on the success path, junk on
the failure path. -/
def reconOut (origins : List Origin) (t : Triple ρ) : Key × QEntry ρ :=
  match reconStep origins t with
  | .ok x => x
  | .error _ => (("", 0), ⟨0, t.val, 0, t.uid⟩)

theorem reconStep_ok_char (origins : List Origin) (t : Triple ρ)
    (x : Key × QEntry ρ) (h : reconStep origins t = .ok x) :
    ∃ o, origins.get? t.uid = some o ∧ t.docId = o.docId ∧
      x.1 = (o.key, t.docId) ∧ x.2.sub = o.sub ∧ x.2.uid = t.uid := by
  unfold reconStep at h
  split at h
  · exact absurd h (by simp)
  · rename_i o ho
    split at h
    · rename_i hd
      split at h
      · injection h with hx
        rw [← hx]
        exact ⟨o, ho, hd, rfl, rfl, rfl⟩
      · split at h
        · exact absurd h (by simp)
        · injection h with hx
          rw [← hx]
          exact ⟨o, ho, hd, rfl, rfl, rfl⟩
    · exact absurd h (by simp)

theorem reconOut_uid (origins : List Origin) (t : Triple ρ) :
    (reconOut origins t).2.uid = t.uid := by
  unfold reconOut
  cases hs : reconStep origins t with
  | error e => rfl
  | ok x =>
      obtain ⟨o, _, _, _, _, hu⟩ := reconStep_ok_char origins t x hs
      exact hu

theorem reconStep_ok_of (origins : List Origin) (t : Triple ρ) (o : Origin)
    (ho : origins.get? t.uid = some o) (hd : t.docId = o.docId)
    (hidx : o.retIdx = none ∨
      ∃ j, o.retIdx = some j ∧ (pyIndex t.val j).isSome = true) :
    ∃ x, reconStep origins t = .ok x := by
  rcases hidx with hn | ⟨j, hj, hs⟩
  · refine ⟨((o.key, t.docId), ⟨o.sub, t.val, o.meta, t.uid⟩), ?_⟩
    unfold reconStep
    simp only [ho, hn]
    rw [if_pos hd]
  · cases hp : pyIndex t.val j with
    | none => rw [hp] at hs; simp at hs
    | some v =>
        refine ⟨((o.key, t.docId), ⟨o.sub, v, o.meta, t.uid⟩), ?_⟩
        unfold reconStep
        simp only [ho, hj, hp]
        rw [if_pos hd]

theorem reconcileType_ok (origins : List Origin) :
    ∀ (ts : List (Triple ρ)),
      (∀ t ∈ ts, ∃ x, reconStep origins t = .ok x) →
      reconcileType origins ts = .ok (ts.map (reconOut origins)) := by
  intro ts
  induction ts with
  | nil => intro _; rfl
  | cons t ts ih =>
      intro h
      obtain ⟨x, hx⟩ := h t (by simp)
      have hout : reconOut origins t = x := by
        unfold reconOut
        rw [hx]
      rw [reconcileType, hx, ih (fun t2 ht2 => h t2 (by simp [ht2]))]
      rw [List.map_cons, hout]

theorem reconcileAll_ok (origins : RT → List Origin) :
    ∀ (l : List (RT × List (Triple ρ))),
      (∀ p ∈ l, ∀ t ∈ p.2, ∃ x, reconStep (origins p.1) t = .ok x) →
      reconcileAll origins l =
        .ok ((l.map fun p => p.2.map (reconOut (origins p.1))).flatten) := by
  intro l
  induction l with
  | nil => intro _; rfl
  | cons p rest ih =>
      intro h
      obtain ⟨rt, ts⟩ := p
      rw [reconcileAll, reconcileType_ok (origins rt) ts (h (rt, ts) (by simp))]
      rw [ih (fun p2 hp2 => h p2 (by simp [hp2]))]
      rfl

/-- What `getattr(model, request_type)` dispatches for one type (empty when
the attribute is missing — in which case `execAll` fails instead). -/
def execOf (cfg : ExecCfg) (bk : Backend ρ) (requests : RT → List Req)
    (rt : RT) : List (Triple ρ) :=
  match bk rt with
  | some fg => execType cfg fg.1 fg.2 (requests rt)
  | none => []

theorem execAll_ok (cfg : ExecCfg) (bk : Backend ρ) :
    ∀ (rts : List RT) (requests : RT → List Req),
      (∀ rt ∈ rts, (bk rt).isSome = true ∨ requests rt = []) →
      execAll cfg bk rts requests =
        .ok (rts.map fun rt => (rt, execOf cfg bk requests rt)) := by
  intro rts
  induction rts with
  | nil => intro requests _; rfl
  | cons rt rts ih =>
      intro requests h
      rw [execAll]
      cases hbk : bk rt with
      | none =>
          cases hreq : requests rt with
          | nil =>
              rw [ih requests (fun rt2 ht2 => h rt2 (by simp [ht2]))]
              simp [execOf, hbk, hreq, execType, chunks, chunksGo, padStream,
                padLen, execLoop]
          | cons a l =>
              rcases h rt (by simp) with hs | he
              · rw [hbk] at hs; simp at hs
              · rw [hreq] at he; simp at he
      | some fg =>
          rw [ih requests (fun rt2 ht2 => h rt2 (by simp [ht2]))]
          simp [execOf, hbk]

/-! ### Multiplexer transport lemmas -/

theorem tagFrom_mem {key : String} {doc docId meta : Nat} :
    ∀ {rs : List PreReq} {i : Nat} {t : Tagged},
      t ∈ tagFrom key doc docId meta i rs →
      ∃ pr ∈ rs, t.rt = pr.rt ∧ t.retIdx = pr.retIdx ∧ t.key = key ∧
        t.doc = doc ∧ t.docId = docId ∧ t.meta = meta := by
  intro rs
  induction rs with
  | nil => intro i t h; simp [tagFrom] at h
  | cons pr rs ih =>
      intro i t h
      rw [tagFrom] at h
      rcases List.mem_cons.1 h with he | h2
      · subst he
        exact ⟨pr, by simp, rfl, rfl, rfl, rfl, rfl, rfl⟩
      · obtain ⟨pr2, hpr2, hrest⟩ := ih h2
        exact ⟨pr2, by simp [hpr2], hrest⟩

theorem taggedStream_mem {stream : List DocEntry} {t : Tagged}
    (h : t ∈ taggedStream stream) :
    ∃ d ∈ stream, ∃ pr ∈ d.reqs, t.rt = pr.rt ∧ t.retIdx = pr.retIdx ∧
      t.key = d.key ∧ t.doc = d.doc ∧ t.docId = d.docId ∧ t.meta = d.meta := by
  obtain ⟨l, hl, hx⟩ := List.mem_flatten.1 h
  obtain ⟨d, hd, hdl⟩ := List.mem_map.1 hl
  rw [← hdl] at hx
  obtain ⟨pr, hpr, hrest⟩ := tagFrom_mem hx
  exact ⟨d, hd, pr, hpr, hrest⟩

/-- Junk origin used as a `getD` default. -/
def noOrigin : Origin := ⟨0, "", 0, 0, 0, none⟩

/-- The bucket key an origin list assigns to a dispatch id. -/
def keyAt (origins : List Origin) (u : Nat) : Key :=
  (((origins.get? u).getD noOrigin).key,
    ((origins.get? u).getD noOrigin).docId)

theorem reconOut_char (origins : List Origin) (t : Triple ρ)
    (h : ∃ x, reconStep origins t = .ok x) :
    ∃ o, origins.get? t.uid = some o ∧ t.docId = o.docId ∧
      (reconOut origins t).1 = (o.key, t.docId) ∧
      (reconOut origins t).2.sub = o.sub := by
  obtain ⟨x, hx⟩ := h
  have hout : reconOut origins t = x := by
    unfold reconOut
    rw [hx]
  obtain ⟨o, ho, hd, h1, h2, _⟩ := reconStep_ok_char origins t x hx
  exact ⟨o, ho, hd, by rw [hout]; exact h1, by rw [hout]; exact h2⟩

theorem queue_key_det (origins : List Origin) (ts : List (Triple ρ))
    (hsucc : ∀ t ∈ ts, ∃ x, reconStep origins t = .ok x) :
    ∀ p ∈ ts.map (reconOut origins), p.1 = keyAt origins p.2.uid := by
  intro p hp
  obtain ⟨t, ht, hpt⟩ := List.mem_map.1 hp
  obtain ⟨o, ho, hd, h1, _⟩ := reconOut_char origins t (hsucc t ht)
  rw [← hpt]
  unfold keyAt
  rw [reconOut_uid, ho]
  simp only [Option.getD_some]
  rw [h1, hd]

theorem queue_key_origin (origins : List Origin) (ts : List (Triple ρ))
    (hsucc : ∀ t ∈ ts, ∃ x, reconStep origins t = .ok x) :
    ∀ p ∈ ts.map (reconOut origins),
      ∃ o ∈ origins, p.1 = (o.key, o.docId) := by
  intro p hp
  obtain ⟨t, ht, hpt⟩ := List.mem_map.1 hp
  obtain ⟨o, ho, hd, h1, _⟩ := reconOut_char origins t (hsucc t ht)
  refine ⟨o, List.get?_mem ho, ?_⟩
  rw [← hpt, h1, hd]

theorem withUids_lookup_proj :
    ∀ (L : List Tagged) (L0 : List Tagged),
      (withUids L0.length L).map (fun r =>
          (((((L0 ++ L).map originOf).get? r.uid).getD noOrigin).key, r.docId,
            ((((L0 ++ L).map originOf).get? r.uid).getD noOrigin).sub))
        = L.map (fun t => (t.key, t.docId, t.sub)) := by
  intro L
  induction L with
  | nil => intro L0; rfl
  | cons t L ih =>
      intro L0
      rw [withUids, List.map_cons, List.map_cons]
      have hlook : ((L0 ++ t :: L).map originOf).get? L0.length =
          some (originOf t) := by
        rw [List.get?_map]
        have : (L0 ++ t :: L).get? L0.length = some t := by
          rw [List.get?_append_right (Nat.le_refl _)]
          simp
        rw [this]
        rfl
      congr 1
      · rw [hlook]
        rfl
      · have hrw : L0 ++ t :: L = (L0 ++ [t]) ++ L := by simp
        have hlen : L0.length + 1 = (L0 ++ [t]).length := by simp
        calc (withUids (L0.length + 1) L).map (fun r =>
                (((((L0 ++ t :: L).map originOf).get? r.uid).getD noOrigin).key,
                  r.docId,
                  ((((L0 ++ t :: L).map originOf).get? r.uid).getD noOrigin).sub))
            = (withUids ((L0 ++ [t]).length) L).map (fun r =>
                ((((((L0 ++ [t]) ++ L).map originOf).get? r.uid).getD noOrigin).key,
                  r.docId,
                  (((((L0 ++ [t]) ++ L).map originOf).get? r.uid).getD
                    noOrigin).sub)) := by
              rw [← hrw, ← hlen]
          _ = L.map (fun t => (t.key, t.docId, t.sub)) := ih (L0 ++ [t])

theorem bucketOf_append (A B : List (Key × QEntry ρ)) (k : Key) :
    bucketOf (A ++ B) k = bucketOf A k ++ bucketOf B k := by
  unfold bucketOf
  rw [List.filter_append, List.map_append]

theorem bucketOf_eq_nil (l : List (Key × QEntry ρ)) (k : Key)
    (h : ∀ p ∈ l, p.1 ≠ k) : bucketOf l k = [] := by
  unfold bucketOf
  have : l.filter (fun p => p.1 = k) = [] := by
    rw [List.filter_eq_nil_iff]
    intro p hp
    simp [h p hp]
  rw [this]
  rfl

theorem single_queue_bucket_dedup (Q : List (Key × QEntry ρ))
    (hdet : ∀ p ∈ Q, ∀ p2 ∈ Q, p.2.uid = p2.2.uid → p.1 = p2.1) (k : Key) :
    dedupQ (bucketOf Q k) =
      bucketOf (keepFirstBy (fun p => p.2.uid) [] Q) k := by
  unfold dedupQ bucketOf
  rw [keepFirstBy_map]
  have hcomm := keepFirstBy_filter_comm
    (fun p : Key × QEntry ρ => p.2.uid) (fun p => p.1 = k) Q []
    (fun x hx y hy hk => by
      have := hdet x hx y hy hk
      simp [this])
  rw [show (fun x : Key × QEntry ρ =>
      (fun e : QEntry ρ => e.uid) ((fun p : Key × QEntry ρ => p.2) x)) =
      (fun p : Key × QEntry ρ => p.2.uid) from rfl]
  rw [hcomm]

theorem flatten_perm_pointwise {f g : κ → List α} :
    ∀ (ks : List κ), (∀ k ∈ ks, (f k).Perm (g k)) →
      ((ks.map f).flatten).Perm ((ks.map g).flatten) := by
  intro ks
  induction ks with
  | nil => intro _; rfl
  | cons k ks ih =>
      intro h
      simp only [List.map_cons, List.flatten_cons]
      exact (h k (by simp)).append (ih (fun k2 hk2 => h k2 (by simp [hk2])))

theorem countP_eq_one_of_nodup_mem [DecidableEq α] :
    ∀ (l : List α), l.Nodup → ∀ (a : α), a ∈ l →
      l.countP (fun x => x = a) = 1 := by
  intro l
  induction l with
  | nil => intro _ a ha; simp at ha
  | cons x xs ih =>
      intro hnd a ha
      obtain ⟨hx, hnd2⟩ := List.nodup_cons.1 hnd
      rcases List.mem_cons.1 ha with he | h2
      · subst he
        rw [List.countP_cons]
        have h0 : xs.countP (fun y => y = a) = 0 := by
          rw [List.countP_eq_zero]
          intro y hy
          simp only [decide_eq_true_eq]
          intro hc
          exact hx (hc ▸ hy)
        simp [h0]
      · rw [List.countP_cons]
        have hxa : ¬ (x = a) := by
          intro hc
          exact hx (hc ▸ h2)
        simp [hxa, ih hnd2 a h2]

theorem execType_nil (cfg : ExecCfg) (f0 f1 : Req → ρ) :
    execType cfg f0 f1 [] = [] := by
  unfold execType
  cases cfg.dist
  · simp [chunks, chunksGo]
  · simp [padStream, padLen, chunks, chunksGo, execLoop]

theorem pyIndex_ok (v : RVal ρ) (j : Nat)
    (hshape : (∃ a b, v = RVal.pairv a b) ∨
      (∃ s, v = RVal.streamv s ∧ 2 ≤ s.length))
    (hj : j = 0 ∨ j = 1) : (pyIndex v j).isSome = true := by
  rcases hshape with ⟨a, b, hv⟩ | ⟨s, hv, hlen⟩
  · subst hv
    rcases hj with rfl | rfl
    · rfl
    · rfl
  · subst hv
    have h0 : ∀ i, i < s.length → ((s.get? i).map (RVal.scal (ρ := ρ))).isSome = true := by
      intro i hi
      rw [List.get?_eq_get hi]
      rfl
    rcases hj with rfl | rfl
    · exact h0 0 (by omega)
    · exact h0 1 (by omega)

theorem typesOf_nodup (stream : List DocEntry) : (typesOf stream).Nodup :=
  dedupFirst_nodup _

theorem requests_nil_of_not_mem (stream : List DocEntry) (rt : RT)
    (h : rt ∉ typesOf stream) :
    (mux stream).requests rt = [] ∧ (mux stream).origins rt = [] := by
  obtain ⟨h1, h2⟩ := mux_closed stream rt
  have hf : filterRt rt (taggedStream stream) = [] := by
    unfold filterRt
    rw [List.filter_eq_nil_iff]
    intro t ht
    simp only [decide_eq_true_eq]
    intro hc
    exact h (mem_dedupFirst.2 (hc ▸ List.mem_map_of_mem (fun t => t.rt) ht))
  rw [h1, h2, hf]
  exact ⟨rfl, rfl⟩


theorem type_facts_core (cfg : ExecCfg) (f0 f1 : Req → ρ) (L : List Tagged)
    (hG : cfg.dist = true → 2 ≤ cfg.W * cfg.B)
    (hret : ∀ t ∈ L, t.retIdx = none ∨ t.retIdx = some 0 ∨ t.retIdx = some 1) :
    (∀ t ∈ execType cfg f0 f1 (withUids 0 L),
        ∃ x, reconStep (L.map originOf) t = .ok x) ∧
    ((keepFirstBy (fun p => p.2.uid) []
        ((execType cfg f0 f1 (withUids 0 L)).map
          (reconOut (L.map originOf)))).map
        (fun p => (p.1.1, p.1.2, p.2.sub))
      = (L.map originOf).map (fun o => (o.key, o.docId, o.sub))) ∧
    ((keepFirstBy (fun p => p.2.uid) []
        ((execType cfg f0 f1 (withUids 0 L)).map
          (reconOut (L.map originOf)))).map (fun p => p.2.uid)
      = (withUids 0 L).map (fun r => r.uid)) := by
  have hnodup : ((withUids 0 L).map (fun r => r.uid)).Nodup :=
    withUids_uid_nodup _ _
  obtain ⟨hsurv, hmem⟩ := exec_covered cfg f0 f1 (withUids 0 L) hG hnodup
  have hsucc : ∀ t ∈ execType cfg f0 f1 (withUids 0 L),
      ∃ x, reconStep (L.map originOf) t = .ok x := by
    intro t ht
    obtain ⟨⟨r, hr, huid, hdoc⟩, hshape⟩ := hmem t ht
    obtain ⟨i, tg, htg, hreq⟩ := withUids_mem hr
    have huid2 : t.uid = i := by rw [huid, hreq]; simp
    have hlook : (L.map originOf).get? t.uid = some (originOf tg) := by
      rw [huid2, List.get?_map, htg]
      rfl
    have hdoc2 : t.docId = (originOf tg).docId := by
      rw [hdoc, hreq]
      rfl
    have htgmem : tg ∈ L := List.get?_mem htg
    have hretval : (originOf tg).retIdx = tg.retIdx := rfl
    refine reconStep_ok_of (L.map originOf) t (originOf tg) hlook hdoc2 ?_
    rcases hret tg htgmem with h0 | h0 | h0
    · exact Or.inl (by rw [hretval, h0])
    · exact Or.inr ⟨0, by rw [hretval, h0],
        pyIndex_ok t.val 0 hshape (Or.inl rfl)⟩
    · exact Or.inr ⟨1, by rw [hretval, h0],
        pyIndex_ok t.val 1 hshape (Or.inr rfl)⟩
  have hkm : keepFirstBy (fun p : Key × QEntry ρ => p.2.uid) []
      ((execType cfg f0 f1 (withUids 0 L)).map (reconOut (L.map originOf))) =
      (keepFirstBy (fun t : Triple ρ => t.uid) []
        (execType cfg f0 f1 (withUids 0 L))).map (reconOut (L.map originOf)) := by
    rw [keepFirstBy_map]
    congr 1
    exact keepFirstBy_congr_keys _ _ _ []
      (fun t => reconOut_uid (L.map originOf) t)
  refine ⟨hsucc, ?_, ?_⟩
  · rw [hkm, List.map_map]
    have hstep1 : (keepFirstBy (fun t : Triple ρ => t.uid) []
        (execType cfg f0 f1 (withUids 0 L))).map
          ((fun p : Key × QEntry ρ => (p.1.1, p.1.2, p.2.sub)) ∘
            reconOut (L.map originOf)) =
        (keepFirstBy (fun t : Triple ρ => t.uid) []
          (execType cfg f0 f1 (withUids 0 L))).map (fun t =>
            ((((L.map originOf).get? t.uid).getD noOrigin).key, t.docId,
              (((L.map originOf).get? t.uid).getD noOrigin).sub)) := by
      refine List.map_congr_left ?_
      intro t ht
      have htm : t ∈ execType cfg f0 f1 (withUids 0 L) :=
        (keepFirstBy_sublist _ _ _).mem ht
      obtain ⟨o, ho, hd, h1, h2⟩ :=
        reconOut_char (L.map originOf) t (hsucc t htm)
      simp only [Function.comp]
      rw [h1, h2, ho]
      simp only [Option.getD_some]
    rw [hstep1]
    have hstep2 : (keepFirstBy (fun t : Triple ρ => t.uid) []
        (execType cfg f0 f1 (withUids 0 L))).map (fun t =>
          ((((L.map originOf).get? t.uid).getD noOrigin).key, t.docId,
            (((L.map originOf).get? t.uid).getD noOrigin).sub)) =
        ((keepFirstBy (fun t : Triple ρ => t.uid) []
          (execType cfg f0 f1 (withUids 0 L))).map
            (fun t => (t.uid, t.docId))).map (fun q =>
          ((((L.map originOf).get? q.1).getD noOrigin).key, q.2,
            (((L.map originOf).get? q.1).getD noOrigin).sub)) := by
      rw [List.map_map]
      rfl
    rw [hstep2, hsurv, List.map_map]
    have hlp := withUids_lookup_proj L []
    simp only [List.nil_append, List.length_nil] at hlp
    have hfin : (withUids 0 L).map ((fun q : Nat × Nat =>
        ((((L.map originOf).get? q.1).getD noOrigin).key, q.2,
          (((L.map originOf).get? q.1).getD noOrigin).sub)) ∘
        (fun r : Req => (r.uid, r.docId))) =
        L.map (fun t => (t.key, t.docId, t.sub)) := by
      refine Eq.trans ?_ hlp
      rfl
    rw [hfin, List.map_map]
    rfl
  · rw [hkm, List.map_map]
    have hk2 : (keepFirstBy (fun t : Triple ρ => t.uid) []
        (execType cfg f0 f1 (withUids 0 L))).map
          ((fun p : Key × QEntry ρ => p.2.uid) ∘
            reconOut (L.map originOf)) =
        (keepFirstBy (fun t : Triple ρ => t.uid) []
          (execType cfg f0 f1 (withUids 0 L))).map (fun t => t.uid) := by
      refine List.map_congr_left ?_
      intro t _
      exact reconOut_uid (L.map originOf) t
    rw [hk2]
    have hfst : (keepFirstBy (fun t : Triple ρ => t.uid) []
        (execType cfg f0 f1 (withUids 0 L))).map (fun t => t.uid) =
        ((keepFirstBy (fun t : Triple ρ => t.uid) []
          (execType cfg f0 f1 (withUids 0 L))).map
            (fun t => (t.uid, t.docId))).map (fun q => q.1) := by
      rw [List.map_map]
      rfl
    rw [hfst, hsurv, List.map_map]
    rfl

theorem flatten_bucket_dedup :
    ∀ (Qs : List (List (Key × QEntry ρ))),
      (∀ Q ∈ Qs, ∀ p ∈ Q, ∀ p2 ∈ Q, p.2.uid = p2.2.uid → p.1 = p2.1) →
      List.Pairwise (fun Q1 Q2 => ∀ p ∈ Q1, ∀ p2 ∈ Q2, p.1 ≠ p2.1) Qs →
      ∀ k, dedupQ (bucketOf Qs.flatten k) =
        bucketOf ((Qs.map (keepFirstBy (fun p => p.2.uid) [])).flatten) k := by
  intro Qs
  induction Qs with
  | nil => intro _ _ k; rfl
  | cons Q Qs ih =>
      intro hdet hpair k
      simp only [List.flatten_cons, List.map_cons]
      rw [bucketOf_append, bucketOf_append]
      obtain ⟨hpairhead, hpairtail⟩ := List.pairwise_cons.1 hpair
      by_cases hq : ∃ p ∈ Q, p.1 = k
      · obtain ⟨p0, hp0, hp0k⟩ := hq
        have hrest : bucketOf Qs.flatten k = [] := by
          refine bucketOf_eq_nil _ _ ?_
          intro p hp hc
          obtain ⟨Q2, hQ2, hpQ2⟩ := List.mem_flatten.1 hp
          exact (hpairhead Q2 hQ2 p0 hp0 p hpQ2) (hp0k.trans hc.symm)
        have hrestS : bucketOf
            ((Qs.map (keepFirstBy (fun p => p.2.uid) [])).flatten) k = [] := by
          refine bucketOf_eq_nil _ _ ?_
          intro p hp hc
          obtain ⟨Q2, hQ2, hpQ2⟩ := List.mem_flatten.1 hp
          obtain ⟨Q3, hQ3, hQ23⟩ := List.mem_map.1 hQ2
          have hp3 : p ∈ Q3 := by
            rw [← hQ23] at hpQ2
            exact (keepFirstBy_sublist _ _ _).mem hpQ2
          exact (hpairhead Q3 hQ3 p0 hp0 p hp3) (hp0k.trans hc.symm)
        rw [hrest, hrestS, List.append_nil, List.append_nil]
        exact single_queue_bucket_dedup Q (hdet Q (by simp)) k
      · push_neg at hq
        have hQnil : bucketOf Q k = [] := bucketOf_eq_nil _ _ hq
        have hQSnil : bucketOf (keepFirstBy (fun p => p.2.uid) [] Q) k = [] := by
          refine bucketOf_eq_nil _ _ ?_
          intro p hp
          exact hq p ((keepFirstBy_sublist _ _ _).mem hp)
        rw [hQnil, hQSnil, List.nil_append, List.nil_append]
        exact ih (fun Q2 hQ2 => hdet Q2 (by simp [hQ2])) hpairtail k

theorem origin_keys_disjoint (stream : List DocEntry)
    (hsingle : ∀ d ∈ stream, ∀ pr ∈ d.reqs, ∀ pr2 ∈ d.reqs, pr.rt = pr2.rt)
    (hdocinj : ∀ d ∈ stream, ∀ d2 ∈ stream,
      d.key = d2.key → d.docId = d2.docId → d = d2)
    (rt rt2 : RT) (hne : rt ≠ rt2) :
    ∀ o ∈ (mux stream).origins rt, ∀ o2 ∈ (mux stream).origins rt2,
      (o.key, o.docId) ≠ (o2.key, o2.docId) := by
  intro o ho o2 ho2 hc
  obtain ⟨_, horigc⟩ := mux_closed stream rt
  obtain ⟨_, horigc2⟩ := mux_closed stream rt2
  rw [horigc] at ho
  rw [horigc2] at ho2
  obtain ⟨tg, htg, htgo⟩ := List.mem_map.1 ho
  obtain ⟨tg2, htg2, htgo2⟩ := List.mem_map.1 ho2
  have htgrt : tg.rt = rt := by
    have := List.of_mem_filter htg
    simpa using this
  have htgrt2 : tg2.rt = rt2 := by
    have := List.of_mem_filter htg2
    simpa using this
  obtain ⟨d, hd, pr, hpr, hprrt, _, hkey, _, hdocId, _⟩ :=
    taggedStream_mem (List.mem_of_mem_filter htg)
  obtain ⟨d2, hd2, pr2, hpr2, hprrt2, _, hkey2, _, hdocId2, _⟩ :=
    taggedStream_mem (List.mem_of_mem_filter htg2)
  have hokey : o.key = tg.key := by rw [← htgo]; rfl
  have hodoc : o.docId = tg.docId := by rw [← htgo]; rfl
  have hokey2 : o2.key = tg2.key := by rw [← htgo2]; rfl
  have hodoc2 : o2.docId = tg2.docId := by rw [← htgo2]; rfl
  have hck : d.key = d2.key := by
    rw [← hkey, ← hkey2, ← hokey, ← hokey2]
    exact congrArg Prod.fst hc
  have hcd : d.docId = d2.docId := by
    rw [← hdocId, ← hdocId2, ← hodoc, ← hodoc2]
    have := congrArg Prod.snd hc
    simpa using this
  have hdd : d = d2 := hdocinj d hd d2 hd2 hck hcd
  have : pr.rt = pr2.rt := by
    refine hsingle d hd pr hpr pr2 ?_
    rw [hdd]
    exact hpr2
  rw [← hprrt, ← hprrt2, htgrt, htgrt2] at this
  exact hne this

/-- The reconciled queue contributed by one request type. -/
def typeQueue (cfg : ExecCfg) (bk : Backend ρ) (stream : List DocEntry)
    (rt : RT) : List (Key × QEntry ρ) :=
  (execOf cfg bk ((mux stream).requests) rt).map
    (reconOut ((mux stream).origins rt))

theorem perty_facts (cfg : ExecCfg) (bk : Backend ρ) (stream : List DocEntry)
    (hbk : ∀ rt ∈ typesOf stream, (bk rt).isSome = true)
    (hret : ∀ d ∈ stream, ∀ pr ∈ d.reqs,
      pr.retIdx = none ∨ pr.retIdx = some 0 ∨ pr.retIdx = some 1)
    (hG : cfg.dist = true → 2 ≤ cfg.W * cfg.B) :
    ∀ rt ∈ typesOf stream,
      (∀ t ∈ execOf cfg bk ((mux stream).requests) rt,
          ∃ x, reconStep ((mux stream).origins rt) t = .ok x) ∧
      ((keepFirstBy (fun p => p.2.uid) [] (typeQueue cfg bk stream rt)).map
          (fun p => (p.1.1, p.1.2, p.2.sub))
        = ((mux stream).origins rt).map (fun o => (o.key, o.docId, o.sub))) ∧
      ((keepFirstBy (fun p => p.2.uid) [] (typeQueue cfg bk stream rt)).map
          (fun p => p.2.uid)
        = ((mux stream).requests rt).map (fun r => r.uid)) := by
  intro rt hrt
  obtain ⟨fg, hfg⟩ := Option.isSome_iff_exists.1 (hbk rt hrt)
  have hexecof : execOf cfg bk ((mux stream).requests) rt =
      execType cfg fg.1 fg.2 ((mux stream).requests rt) := by
    unfold execOf
    rw [hfg]
  obtain ⟨hreqc, horigc⟩ := mux_closed stream rt
  have hretL : ∀ t ∈ filterRt rt (taggedStream stream),
      t.retIdx = none ∨ t.retIdx = some 0 ∨ t.retIdx = some 1 := by
    intro t ht
    obtain ⟨d, hd, pr, hpr, _, hridx, _⟩ :=
      taggedStream_mem (List.mem_of_mem_filter ht)
    rcases hret d hd pr hpr with h | h | h
    · exact Or.inl (by rw [hridx, h])
    · exact Or.inr (Or.inl (by rw [hridx, h]))
    · exact Or.inr (Or.inr (by rw [hridx, h]))
  have hcore := type_facts_core cfg fg.1 fg.2
    (filterRt rt (taggedStream stream)) hG hretL
  unfold typeQueue
  rw [hexecof, hreqc, horigc]
  exact hcore

theorem bucketOf_flatten_nil (k : Key) :
    ∀ (L : List (List (Key × QEntry ρ))),
      (∀ l ∈ L, bucketOf l k = []) → bucketOf L.flatten k = [] := by
  intro L
  induction L with
  | nil => intro _; rfl
  | cons l L ih =>
      intro h
      rw [List.flatten_cons, bucketOf_append, h l (by simp),
        ih (fun l2 hl2 => h l2 (by simp [hl2])), List.append_nil]

theorem bucket_flatten_types (k : Key) :
    ∀ (rts : List RT) (F : RT → List (Key × QEntry ρ)) (rt : RT),
      rts.Nodup → rt ∈ rts →
      (∀ rt2 ∈ rts, rt2 ≠ rt → bucketOf (F rt2) k = []) →
      bucketOf ((rts.map F).flatten) k = bucketOf (F rt) k := by
  intro rts
  induction rts with
  | nil => intro F rt _ hmem _; simp at hmem
  | cons a rts ih =>
      intro F rt hnd hmem hnil
      obtain ⟨ha, hnd2⟩ := List.nodup_cons.1 hnd
      rw [List.map_cons, List.flatten_cons, bucketOf_append]
      rcases List.mem_cons.1 hmem with he | h2
      · subst he
        have hrest : bucketOf ((rts.map F).flatten) k = [] := by
          refine bucketOf_flatten_nil k _ ?_
          intro l hl
          obtain ⟨rt2, hrt2, hlrt2⟩ := List.mem_map.1 hl
          rw [← hlrt2]
          refine hnil rt2 (by simp [hrt2]) ?_
          intro hc
          exact ha (hc ▸ hrt2)
        rw [hrest, List.append_nil]
      · have hhead : bucketOf (F a) k = [] := by
          refine hnil a (by simp) ?_
          intro hc
          exact ha (hc ▸ h2)
        rw [hhead, List.nil_append]
        exact ih F rt hnd2 h2 (fun rt2 hrt2 hne => hnil rt2 (by simp [hrt2]) hne)

theorem pipeline_ok (cfg : ExecCfg) (bk : Backend ρ) (stream : List DocEntry)
    (hbk : ∀ rt ∈ typesOf stream, (bk rt).isSome = true)
    (hret : ∀ d ∈ stream, ∀ pr ∈ d.reqs,
      pr.retIdx = none ∨ pr.retIdx = some 0 ∨ pr.retIdx = some 1)
    (hG : cfg.dist = true → 2 ≤ cfg.W * cfg.B) :
    pipelineQueue cfg bk stream =
      .ok (((typesOf stream).map (typeQueue cfg bk stream)).flatten) := by
  have hQs := perty_facts cfg bk stream hbk hret hG
  have hsuccall : ∀ p ∈ (typesOf stream).map
      (fun rt => (rt, execOf cfg bk ((mux stream).requests) rt)),
      ∀ t ∈ p.2, ∃ x, reconStep ((mux stream).origins p.1) t = .ok x := by
    intro p hp
    obtain ⟨rt, hrt, hprt⟩ := List.mem_map.1 hp
    rw [← hprt]
    exact (hQs rt hrt).1
  have hexec := execAll_ok cfg bk (typesOf stream) ((mux stream).requests)
    (fun rt hrt => Or.inl (hbk rt hrt))
  have hrec := reconcileAll_ok ((mux stream).origins)
    ((typesOf stream).map
      (fun rt => (rt, execOf cfg bk ((mux stream).requests) rt))) hsuccall
  unfold pipelineQueue
  simp only [hexec, hrec]
  rw [List.map_map]
  rfl

theorem queues_det (cfg : ExecCfg) (bk : Backend ρ) (stream : List DocEntry)
    (hbk : ∀ rt ∈ typesOf stream, (bk rt).isSome = true)
    (hret : ∀ d ∈ stream, ∀ pr ∈ d.reqs,
      pr.retIdx = none ∨ pr.retIdx = some 0 ∨ pr.retIdx = some 1)
    (hG : cfg.dist = true → 2 ≤ cfg.W * cfg.B) :
    ∀ Q ∈ (typesOf stream).map (typeQueue cfg bk stream),
      ∀ p ∈ Q, ∀ p2 ∈ Q, p.2.uid = p2.2.uid → p.1 = p2.1 := by
  have hQs := perty_facts cfg bk stream hbk hret hG
  intro Q hQ
  obtain ⟨rt, hrt, hQrt⟩ := List.mem_map.1 hQ
  intro p hp p2 hp2 huid
  have hdet := queue_key_det ((mux stream).origins rt)
    (execOf cfg bk ((mux stream).requests) rt) (hQs rt hrt).1
  rw [← hQrt] at hp hp2
  unfold typeQueue at hp hp2
  rw [hdet p hp, hdet p2 hp2, huid]

theorem queues_disjoint (cfg : ExecCfg) (bk : Backend ρ)
    (stream : List DocEntry)
    (hbk : ∀ rt ∈ typesOf stream, (bk rt).isSome = true)
    (hsingle : ∀ d ∈ stream, ∀ pr ∈ d.reqs, ∀ pr2 ∈ d.reqs, pr.rt = pr2.rt)
    (hdocinj : ∀ d ∈ stream, ∀ d2 ∈ stream,
      d.key = d2.key → d.docId = d2.docId → d = d2)
    (hret : ∀ d ∈ stream, ∀ pr ∈ d.reqs,
      pr.retIdx = none ∨ pr.retIdx = some 0 ∨ pr.retIdx = some 1)
    (hG : cfg.dist = true → 2 ≤ cfg.W * cfg.B) :
    List.Pairwise (fun Q1 Q2 => ∀ p ∈ Q1, ∀ p2 ∈ Q2, p.1 ≠ p2.1)
      ((typesOf stream).map (typeQueue cfg bk stream)) := by
  have hQs := perty_facts cfg bk stream hbk hret hG
  refine (List.pairwise_map).2 ?_
  refine (typesOf_nodup stream).imp_of_mem ?_
  intro rt1 rt2 h1 h2 hne p hp p2 hp2 hc
  unfold typeQueue at hp hp2
  obtain ⟨o1, ho1m, hp1⟩ := queue_key_origin ((mux stream).origins rt1) _
    (hQs rt1 h1).1 p hp
  obtain ⟨o2, ho2m, hp2e⟩ := queue_key_origin ((mux stream).origins rt2) _
    (hQs rt2 h2).1 p2 hp2
  exact origin_keys_disjoint stream hsingle hdocinj rt1 rt2 hne o1 ho1m o2 ho2m
    (by rw [← hp1, ← hp2e, hc])

theorem flatten_map_proj (g : α → β) (F : κ → List α) :
    ∀ ks : List κ,
      (ks.map (fun k => (F k).map g)).flatten = ((ks.map F).flatten).map g := by
  intro ks
  induction ks with
  | nil => rfl
  | cons k ks ih =>
      simp only [List.map_cons, List.flatten_cons, List.map_append, ih]

theorem recovered_perm_generic (Qs : List (List (Key × QEntry ρ)))
    (hdet : ∀ Q ∈ Qs, ∀ p ∈ Q, ∀ p2 ∈ Q, p.2.uid = p2.2.uid → p.1 = p2.1)
    (hpair : List.Pairwise (fun Q1 Q2 => ∀ p ∈ Q1, ∀ p2 ∈ Q2, p.1 ≠ p2.1) Qs) :
    (recoveredTriples Qs.flatten).Perm
      ((Qs.map (fun Q => (keepFirstBy (fun p => p.2.uid) [] Q).map
        (fun p => (p.1.1, p.1.2, p.2.sub)))).flatten) := by
  have hbucket := flatten_bucket_dedup Qs hdet hpair
  unfold recoveredTriples
  refine List.Perm.trans (flatten_perm_pointwise _
    (fun k _ => (List.perm_insertionSort _ _).map _)) ?_
  have h1 : (keysOf Qs.flatten).map (fun k =>
      (dedupQ (bucketOf Qs.flatten k)).map (fun e => (k.1, k.2, e.sub))) =
      (keysOf Qs.flatten).map (fun k =>
        (((Qs.map (keepFirstBy (fun p => p.2.uid) [])).flatten.filter
          (fun p => p.1 = k)).map (fun p => (p.1.1, p.1.2, p.2.sub)))) := by
    refine List.map_congr_left ?_
    intro k _
    rw [hbucket k]
    unfold bucketOf
    rw [List.map_map]
    refine List.map_congr_left ?_
    intro p hp
    have hpk : p.1 = k := by
      have := List.of_mem_filter hp
      simpa using this
    simp only [Function.comp]
    rw [← hpk]
  rw [h1]
  rw [flatten_map_proj (fun p : Key × QEntry ρ => (p.1.1, p.1.2, p.2.sub))
    (fun k => (Qs.map (keepFirstBy (fun p => p.2.uid) [])).flatten.filter
      (fun p => p.1 = k)) (keysOf Qs.flatten)]
  have hcover : ∀ p ∈ (Qs.map (keepFirstBy (fun p => p.2.uid) [])).flatten,
      p.1 ∈ keysOf Qs.flatten := by
    intro p hp
    obtain ⟨S, hS, hpS⟩ := List.mem_flatten.1 hp
    obtain ⟨Q, hQ, hQS⟩ := List.mem_map.1 hS
    have hpQ : p ∈ Q := by
      rw [← hQS] at hpS
      exact (keepFirstBy_sublist _ _ _).mem hpS
    have hpq : p ∈ Qs.flatten := List.mem_flatten.2 ⟨Q, hQ, hpQ⟩
    unfold keysOf
    exact mem_dedupFirst.2 (List.mem_map_of_mem _ hpq)
  refine List.Perm.trans ((partition_perm (fun p : Key × QEntry ρ => p.1)
    (keysOf Qs.flatten) _ (dedupFirst_nodup _) hcover).map _) ?_
  have hlast := flatten_map_proj
    (fun p : Key × QEntry ρ => (p.1.1, p.1.2, p.2.sub))
    (keepFirstBy (fun p => p.2.uid) []) Qs
  rw [hlast]

theorem pipeline_perm (cfg : ExecCfg) (bk : Backend ρ) (stream : List DocEntry)
    (hbk : ∀ rt ∈ typesOf stream, (bk rt).isSome = true)
    (hsingle : ∀ d ∈ stream, ∀ pr ∈ d.reqs, ∀ pr2 ∈ d.reqs, pr.rt = pr2.rt)
    (hdocinj : ∀ d ∈ stream, ∀ d2 ∈ stream,
      d.key = d2.key → d.docId = d2.docId → d = d2)
    (hret : ∀ d ∈ stream, ∀ pr ∈ d.reqs,
      pr.retIdx = none ∨ pr.retIdx = some 0 ∨ pr.retIdx = some 1)
    (hG : cfg.dist = true → 2 ≤ cfg.W * cfg.B) :
    (recoveredTriples
        (((typesOf stream).map (typeQueue cfg bk stream)).flatten)).Perm
      (constructedTriples stream) := by
  have hQs := perty_facts cfg bk stream hbk hret hG
  refine List.Perm.trans (recovered_perm_generic
    ((typesOf stream).map (typeQueue cfg bk stream))
    (queues_det cfg bk stream hbk hret hG)
    (queues_disjoint cfg bk stream hbk hsingle hdocinj hret hG)) ?_
  rw [List.map_map]
  have hE : ((typesOf stream).map ((fun Q =>
      (keepFirstBy (fun p : Key × QEntry ρ => p.2.uid) [] Q).map
        (fun p => (p.1.1, p.1.2, p.2.sub))) ∘ typeQueue cfg bk stream)) =
      (typesOf stream).map (fun rt =>
        ((mux stream).origins rt).map (fun o => (o.key, o.docId, o.sub))) := by
    refine List.map_congr_left ?_
    intro rt hrt
    exact (hQs rt hrt).2.1
  rw [hE]
  exact List.Perm.refl _

theorem pipeline_count (cfg : ExecCfg) (bk : Backend ρ) (stream : List DocEntry)
    (hbk : ∀ rt ∈ typesOf stream, (bk rt).isSome = true)
    (hsingle : ∀ d ∈ stream, ∀ pr ∈ d.reqs, ∀ pr2 ∈ d.reqs, pr.rt = pr2.rt)
    (hdocinj : ∀ d ∈ stream, ∀ d2 ∈ stream,
      d.key = d2.key → d.docId = d2.docId → d = d2)
    (hret : ∀ d ∈ stream, ∀ pr ∈ d.reqs,
      pr.retIdx = none ∨ pr.retIdx = some 0 ∨ pr.retIdx = some 1)
    (hG : cfg.dist = true → 2 ≤ cfg.W * cfg.B) :
    ∀ rt u, u < ((mux stream).origins rt).length →
      ((dedupQ (bucketOf
          (((typesOf stream).map (typeQueue cfg bk stream)).flatten)
          (keyAt ((mux stream).origins rt) u))).countP
        (fun e => e.uid = u)) = 1 := by
  have hQs := perty_facts cfg bk stream hbk hret hG
  have hbucket := flatten_bucket_dedup
    ((typesOf stream).map (typeQueue cfg bk stream))
    (queues_det cfg bk stream hbk hret hG)
    (queues_disjoint cfg bk stream hbk hsingle hdocinj hret hG)
  intro rt u hu
  have hrtmem : rt ∈ typesOf stream := by
    by_contra hc
    have h0 := (requests_nil_of_not_mem stream rt hc).2
    rw [h0] at hu
    simp at hu
  obtain ⟨o, ho⟩ : ∃ o, ((mux stream).origins rt).get? u = some o := by
    cases hg : ((mux stream).origins rt).get? u with
    | none =>
        exfalso
        have := List.get?_eq_none.1 hg
        omega
    | some o2 => exact ⟨o2, rfl⟩
  have homem : o ∈ (mux stream).origins rt := List.get?_mem ho
  have hkeyval : keyAt ((mux stream).origins rt) u = (o.key, o.docId) := by
    unfold keyAt
    rw [ho]
    rfl
  rw [hbucket, List.map_map]
  have honly : ∀ rt2 ∈ typesOf stream, rt2 ≠ rt →
      bucketOf ((keepFirstBy (fun p : Key × QEntry ρ => p.2.uid) [] ∘
        typeQueue cfg bk stream) rt2)
        (keyAt ((mux stream).origins rt) u) = [] := by
    intro rt2 hrt2 hne
    refine bucketOf_eq_nil _ _ ?_
    intro p hp hc
    have hpQ : p ∈ typeQueue cfg bk stream rt2 :=
      (keepFirstBy_sublist _ _ _).mem hp
    unfold typeQueue at hpQ
    obtain ⟨o2, ho2m, hp2⟩ := queue_key_origin ((mux stream).origins rt2) _
      (hQs rt2 hrt2).1 p hpQ
    refine origin_keys_disjoint stream hsingle hdocinj rt2 rt hne
      o2 ho2m o homem ?_
    rw [← hp2, hc, hkeyval]
  rw [bucket_flatten_types (keyAt ((mux stream).origins rt) u)
    (typesOf stream) _ rt (typesOf_nodup stream) hrtmem honly]
  show ((((keepFirstBy (fun p : Key × QEntry ρ => p.2.uid) []
      (typeQueue cfg bk stream rt)).filter
        (fun p => p.1 = keyAt ((mux stream).origins rt) u)).map
          (fun p => p.2)).countP (fun e => e.uid = u)) = 1
  rw [List.countP_map, List.countP_filter]
  have hdetQ := queue_key_det ((mux stream).origins rt)
    (execOf cfg bk ((mux stream).requests) rt) (hQs rt hrtmem).1
  have hcongr : ∀ p ∈ keepFirstBy (fun p : Key × QEntry ρ => p.2.uid) []
      (typeQueue cfg bk stream rt),
      (((fun e : QEntry ρ => decide (e.uid = u)) ∘ (fun p => p.2)) p &&
        decide (p.1 = keyAt ((mux stream).origins rt) u)) = true ↔
      (decide (p.2.uid = u)) = true := by
    intro p hp
    have hpQ : p ∈ typeQueue cfg bk stream rt :=
      (keepFirstBy_sublist _ _ _).mem hp
    have hk : p.1 = keyAt ((mux stream).origins rt) p.2.uid := by
      refine hdetQ p ?_
      unfold typeQueue at hpQ
      exact hpQ
    simp only [Function.comp, Bool.and_eq_true, decide_eq_true_eq]
    constructor
    · rintro ⟨h1, _⟩
      exact h1
    · intro h1
      refine ⟨h1, ?_⟩
      rw [hk, h1]
  rw [List.countP_congr hcongr]
  have hmapped := List.countP_map (fun x : Nat => decide (x = u))
    (fun p : Key × QEntry ρ => p.2.uid)
    (keepFirstBy (fun p : Key × QEntry ρ => p.2.uid) []
      (typeQueue cfg bk stream rt))
  rw [show (fun p : Key × QEntry ρ => decide (p.2.uid = u)) =
      ((fun x : Nat => decide (x = u)) ∘
        (fun p : Key × QEntry ρ => p.2.uid)) from rfl]
  rw [← hmapped, (hQs rt hrtmem).2.2]
  obtain ⟨hreqc, horigc⟩ := mux_closed stream rt
  have hlen : ((mux stream).origins rt).length =
      (filterRt rt (taggedStream stream)).length := by
    rw [horigc, List.length_map]
  rw [hreqc, withUids_map_uid]
  refine countP_eq_one_of_nodup_mem _ ?_ u ?_
  · apply List.nodup_range'
    exact Nat.one_pos
  · rw [List.mem_range'_1]
    constructor
    · omega
    · omega

/-! ### Claim theorems -/

/-- Claim C10: for every `(task_template_key, metric_name)`, the aggregation
stage applies the task's reduction twice to the same value list — once for
the `table_results` mapping, once for the `results` list — and, when a
standard-error estimator is defined, applies it twice to the same list; the
reduction and the estimator being (as embedded) deterministic functions of
their input, the point estimate and standard error stored in the
`table_results` row equal those stored in the `results`-list row. -/
theorem C10_aggregation_twice {V : Type} (agg : List V → V)
    (stderrFn : Option (List V → Option V)) (items : List V) :
    (aggregateOne agg stderrFn items).1 = (aggregateOne agg stderrFn items).2 := by
  unfold aggregateOne
  cases stderrFn with
  | none => rfl
  | some s => rfl

/-- Claim C8: for every `(task_template_key, metric_name)` whose collected
value list has fewer than 2 elements, the aggregation stage omits the
standard error from the output — no `metric_stderr` entry is produced in
either row, in particular zero is not reported — while still reporting the
point estimate; the stage is a total function, so the run does not fail. -/
theorem C8_stderr_degenerate {V : Type} (agg : List V → V)
    (est : (List V → V) → Nat → List V → V) (iters : Nat) (items : List V)
    (h : items.length < 2) :
    (aggregateOne agg (some (specStderr est agg iters)) items).1.stderrE =
        none ∧
    (aggregateOne agg (some (specStderr est agg iters)) items).2.stderrE =
        none ∧
    (aggregateOne agg (some (specStderr est agg iters)) items).1.point =
        agg items ∧
    (aggregateOne agg (some (specStderr est agg iters)) items).2.point =
        agg items := by
  have hs : specStderr est agg iters items = none := by
    unfold specStderr
    rw [if_pos h]
  refine ⟨?_, ?_, rfl, rfl⟩
  · show specStderr est agg iters items = none
    exact hs
  · show specStderr est agg iters items = none
    exact hs

/-- Witness for C8 at a one-element value list. -/
theorem C8_stderr_degenerate_witness :
    (aggregateOne (fun l : List Nat => l.length)
      (some (specStderr (fun _ _ _ => 0) (fun l : List Nat => l.length) 100000))
      [3]).1.stderrE = none ∧
    (aggregateOne (fun l : List Nat => l.length)
      (some (specStderr (fun _ _ _ => 0) (fun l : List Nat => l.length) 100000))
      [3]).2.stderrE = none ∧
    (aggregateOne (fun l : List Nat => l.length)
      (some (specStderr (fun _ _ _ => 0) (fun l : List Nat => l.length) 100000))
      [3]).1.point = (fun l : List Nat => l.length) [3] ∧
    (aggregateOne (fun l : List Nat => l.length)
      (some (specStderr (fun _ _ _ => 0) (fun l : List Nat => l.length) 100000))
      [3]).2.point = (fun l : List Nat => l.length) [3] :=
  C8_stderr_degenerate (fun l : List Nat => l.length) (fun _ _ _ => 0)
    100000 [3] (by decide)

theorem keepFirstBy_append_dup [DecidableEq κ] (key : α → κ) (t : α) :
    ∀ (l : List α) (seen : List κ),
      keepFirstBy key seen (l ++ [t, t]) = keepFirstBy key seen (l ++ [t]) := by
  intro l
  induction l with
  | nil =>
      intro seen
      by_cases h : key t ∈ seen
      · simp [keepFirstBy, h]
      · simp [keepFirstBy, h]
  | cons x xs ih =>
      intro seen
      simp only [List.cons_append, keepFirstBy]
      by_cases h : key x ∈ seen
      · rw [if_pos h, if_pos h]
        exact ih seen
      · rw [if_neg h, if_neg h]
        exact congrArg (x :: ·) (ih (key x :: seen))

/-- Claim C4: the Reconciler discards all but the first-seen entry per
`dispatch_id` before sorting, so appending the same bucket entry twice
yields a per-document Result Bundle — surviving entries, response list and
logging info — identical to appending it once: the deduplication is
idempotent. -/
theorem C4_dedup_idempotent {ρ : Type} [DecidableEq ρ]
    (l : List (QEntry ρ)) (t : QEntry ρ) :
    bundleEntries (l ++ [t, t]) = bundleEntries (l ++ [t]) ∧
    bundle (l ++ [t, t]) = bundle (l ++ [t]) ∧
    bundleMeta (l ++ [t, t]) = bundleMeta (l ++ [t]) := by
  have hd := keepFirstBy_append_dup (fun e : QEntry ρ => e.uid) t l []
  unfold bundleEntries bundle bundleMeta bundleEntries dedupQ
  rw [hd]
  exact ⟨rfl, rfl, rfl⟩

theorem reconStep_docMismatch_char {ρ : Type} (origins : List Origin)
    (t : Triple ρ) (h : reconStep origins t = .error .docMismatch) :
    ∃ o, origins.get? t.uid = some o ∧ t.docId ≠ o.docId := by
  unfold reconStep at h
  split at h
  · exact absurd h (by simp)
  · rename_i o ho
    split at h
    · split at h
      · exact absurd h (by simp)
      · split at h
        · exact absurd h (by simp)
        · exact absurd h (by simp)
    · rename_i hd
      exact ⟨o, ho, hd⟩

/-- Claim C6: the Reconciler asserts, for every consumed triple, that the
`doc_id` carried in the batch stream equals the `doc_id` stored in the
origin record looked up at index `dispatch_id`: a mismatch on any triple
aborts the run with the `docMismatch` failure, and when every triple's
carried `doc_id` matches its origin record the assertion's failure branch
is unreachable — the run can never end in `docMismatch`. -/
theorem C6_docid_assert {ρ : Type} (origins : List Origin) (t : Triple ρ)
    (ts : List (Triple ρ)) (o : Origin) :
    ((origins.get? t.uid = some o ∧ t.docId ≠ o.docId) →
      reconcileType origins (t :: ts) = .error .docMismatch) ∧
    ((∀ t2 ∈ t :: ts, ∀ o2, origins.get? t2.uid = some o2 →
        t2.docId = o2.docId) →
      reconcileType origins (t :: ts) ≠ .error .docMismatch) := by
  constructor
  · rintro ⟨ho, hne⟩
    have hstep : reconStep origins t = .error .docMismatch := by
      unfold reconStep
      simp only [ho]
      rw [if_neg hne]
    rw [reconcileType, hstep]
  · intro hall
    suffices hgen : ∀ (ts2 : List (Triple ρ)),
        (∀ t2 ∈ ts2, ∀ o2, origins.get? t2.uid = some o2 →
          t2.docId = o2.docId) →
        reconcileType origins ts2 ≠ .error .docMismatch by
      exact hgen (t :: ts) hall
    intro ts2
    induction ts2 with
    | nil => intro _ hc; exact absurd hc (by simp [reconcileType])
    | cons t2 ts3 ih =>
        intro h2 hc
        rw [reconcileType] at hc
        cases hs : reconStep origins t2 with
        | error e =>
            rw [hs] at hc
            have he : e = RecErr.docMismatch := by
              cases hc
              rfl
            subst he
            obtain ⟨o2, ho2, hne2⟩ := reconStep_docMismatch_char origins t2 hs
            exact hne2 (h2 t2 (by simp) o2 ho2)
        | ok x =>
            rw [hs] at hc
            cases hrec : reconcileType origins ts3 with
            | error e =>
                rw [hrec] at hc
                have he : e = RecErr.docMismatch := by
                  cases hc
                  rfl
                subst he
                exact ih (fun t3 ht3 => h2 t3 (by simp [ht3])) hrec
            | ok xs =>
                rw [hrec] at hc
                simp at hc

/-- Claim C3: per request type, `requests` and `requests_origin` are
index-aligned and of equal length; the `i`-th request of a type has
`unique_request_id = i` (zero-based, monotonic per type, equal to the count
of requests already assigned for that type), carries that type, and its
origin record sits at index `i` with the same `doc_id` and
`request_return_index`. -/
theorem C3_multiplexer_alignment (stream : List DocEntry) (rt : RT) :
    ((mux stream).requests rt).length = ((mux stream).origins rt).length ∧
    ∀ i r, ((mux stream).requests rt).get? i = some r →
      r.uid = i ∧ r.rt = rt ∧
      ∃ o, ((mux stream).origins rt).get? i = some o ∧
        o.docId = r.docId ∧ o.retIdx = r.retIdx := by
  obtain ⟨hreq, horig⟩ := mux_closed stream rt
  constructor
  · rw [hreq, horig, withUids_length, List.length_map]
  · intro i r hr
    rw [hreq] at hr
    have hw := withUids_get? (filterRt rt (taggedStream stream)) 0 i
    rw [hr] at hw
    cases hl : (filterRt rt (taggedStream stream)).get? i with
    | none =>
        rw [hl] at hw
        exact absurd hw (by simp)
    | some t =>
        rw [hl] at hw
        simp only [Option.map_some'] at hw
        injection hw with hw
        have ht : t.rt = rt := by
          have hm : t ∈ filterRt rt (taggedStream stream) := List.get?_mem hl
          have := (List.mem_filter.1 hm).2
          simpa using this
        subst hw
        refine ⟨by simp, ht, ?_⟩
        rw [horig]
        refine ⟨originOf t, ?_, rfl, rfl⟩
        rw [List.get?_map, hl]
        rfl

def w3stream : List DocEntry :=
  [⟨"k0", 0, 7, 5, [⟨"ll", some 0⟩, ⟨"gen", none⟩]⟩,
   ⟨"k1", 1, 8, 6, [⟨"ll", some 1⟩]⟩]

/-- Witness for C3 at a two-document, two-type stream. -/
theorem C3_multiplexer_alignment_witness :
    ((mux w3stream).requests "ll").get? 1 = some ⟨"ll", some 1, 1, 1⟩ ∧
    ((⟨"ll", some 1, 1, 1⟩ : Req).uid = 1 ∧
      (⟨"ll", some 1, 1, 1⟩ : Req).rt = "ll" ∧
      ∃ o, ((mux w3stream).origins "ll").get? 1 = some o ∧
        o.docId = (⟨"ll", some 1, 1, 1⟩ : Req).docId ∧
        o.retIdx = (⟨"ll", some 1, 1, 1⟩ : Req).retIdx) :=
  ⟨by decide, (C3_multiplexer_alignment w3stream "ll").2 1
    ⟨"ll", some 1, 1, 1⟩ (by decide)⟩

theorem sortedKey_unique {ρ : Type} :
    ∀ (A B : List (QEntry ρ)), A.Perm B →
      List.Sorted (fun a b : QEntry ρ => a.sub ≤ b.sub) A →
      List.Sorted (fun a b : QEntry ρ => a.sub ≤ b.sub) B →
      (∀ a ∈ A, ∀ b ∈ A, a.sub = b.sub → a = b) → A = B := by
  intro A
  induction A with
  | nil =>
      intro B hp _ _ _
      exact (hp.symm.eq_nil).symm
  | cons a A ih =>
      intro B hp hA hB hinj
      cases B with
      | nil => exact absurd hp.eq_nil (by simp)
      | cons b B' =>
          have hab : a = b := by
            have hbmem : b ∈ a :: A := hp.mem_iff.2 (by simp)
            have hamem : a ∈ b :: B' := hp.mem_iff.1 (by simp)
            rcases List.mem_cons.1 hbmem with he | hbA
            · exact he.symm
            · rcases List.mem_cons.1 hamem with he2 | haB'
              · exact he2
              · have h1 : a.sub ≤ b.sub := (List.sorted_cons.1 hA).1 b hbA
                have h2 : b.sub ≤ a.sub := (List.sorted_cons.1 hB).1 a haB'
                exact hinj a (by simp) b (List.mem_cons_of_mem _ hbA)
                  (Nat.le_antisymm h1 h2)
          subst hab
          have hp' : A.Perm B' := hp.cons_inv
          have := ih B' hp' (List.sorted_cons.1 hA).2 (List.sorted_cons.1 hB).2
            (fun x hx y hy hxy =>
              hinj x (List.mem_cons_of_mem _ hx) y (List.mem_cons_of_mem _ hy) hxy)
          rw [this]

theorem dedupQ_mem_iff {ρ : Type} [DecidableEq ρ] (m : List (QEntry ρ))
    (hu : ∀ a ∈ m, ∀ b ∈ m, a.uid = b.uid → a = b) (x : QEntry ρ) :
    x ∈ dedupQ m ↔ x ∈ m := by
  constructor
  · intro h
    exact (keepFirstBy_sublist (fun e : QEntry ρ => e.uid) m []).mem h
  · intro h
    rcases keepFirstBy_key_reached (fun e : QEntry ρ => e.uid) m [] x h with
      hs | ⟨y, hy, hk⟩
    · simp at hs
    · have hym : y ∈ m :=
        (keepFirstBy_sublist (fun e : QEntry ρ => e.uid) m []).mem hy
      have he : y = x := hu y hym x h hk
      show x ∈ keepFirstBy (fun e : QEntry ρ => e.uid) [] m
      exact he ▸ hy

theorem dedupQ_nodup {ρ : Type} [DecidableEq ρ] (m : List (QEntry ρ)) :
    (dedupQ m).Nodup := by
  have h := (keepFirstBy_keys_nodup (fun e : QEntry ρ => e.uid) m []).1
  exact h.of_map

/-- Claim C5: for every bucket whose entries are pairwise distinguished by
`unique_request_id` and by sub-index, the surviving entries after dedup are
sorted by sub-index ascending, they are exactly the dedup survivors, the
bucket's context metadata comes from the first sorted entry, and the Result
Bundle is invariant under the arrival order of the bucket's entries. -/
theorem C5_bucket_ordering {ρ : Type} [DecidableEq ρ] (l l' : List (QEntry ρ))
    (huid : ∀ a ∈ l, ∀ b ∈ l, a.uid = b.uid → a = b)
    (hsub : ∀ a ∈ l, ∀ b ∈ l, a.sub = b.sub → a = b)
    (hperm : l'.Perm l) :
    List.Sorted (fun a b : QEntry ρ => a.sub ≤ b.sub) (bundleEntries l) ∧
    (bundleEntries l).Perm (dedupQ l) ∧
    (∀ e, (bundleEntries l).head? = some e → bundleMeta l = some e.meta) ∧
    bundleEntries l' = bundleEntries l ∧
    bundle l' = bundle l ∧
    bundleMeta l' = bundleMeta l := by
  haveI hTot : IsTotal (QEntry ρ) (fun a b => a.sub ≤ b.sub) :=
    ⟨fun a b => Nat.le_total a.sub b.sub⟩
  haveI hTrans : IsTrans (QEntry ρ) (fun a b => a.sub ≤ b.sub) :=
    ⟨fun a b c h1 h2 => Nat.le_trans h1 h2⟩
  have hsorted : ∀ m : List (QEntry ρ),
      List.Sorted (fun a b : QEntry ρ => a.sub ≤ b.sub) (bundleEntries m) :=
    fun m => List.sorted_insertionSort _ (dedupQ m)
  have hbperm : ∀ m : List (QEntry ρ), (bundleEntries m).Perm (dedupQ m) :=
    fun m => List.perm_insertionSort _ (dedupQ m)
  have huid' : ∀ a ∈ l', ∀ b ∈ l', a.uid = b.uid → a = b :=
    fun a ha b hb hab => huid a (hperm.mem_iff.1 ha) b (hperm.mem_iff.1 hb) hab
  have hdperm : (dedupQ l').Perm (dedupQ l) := by
    refine (List.perm_ext_iff_of_nodup (dedupQ_nodup l') (dedupQ_nodup l)).2 ?_
    intro x
    rw [dedupQ_mem_iff l' huid' x, dedupQ_mem_iff l huid x]
    exact hperm.mem_iff
  have hEperm : (bundleEntries l').Perm (bundleEntries l) :=
    ((hbperm l').trans hdperm).trans (hbperm l).symm
  have hEq : bundleEntries l' = bundleEntries l := by
    refine sortedKey_unique (bundleEntries l') (bundleEntries l) hEperm
      (hsorted l') (hsorted l) ?_
    intro a ha b hb hab
    have hal : a ∈ l :=
      hperm.mem_iff.1 ((dedupQ_mem_iff l' huid' a).1 ((hbperm l').mem_iff.1 ha))
    have hbl : b ∈ l :=
      hperm.mem_iff.1 ((dedupQ_mem_iff l' huid' b).1 ((hbperm l').mem_iff.1 hb))
    exact hsub a hal b hbl hab
  refine ⟨hsorted l, hbperm l, ?_, hEq, ?_, ?_⟩
  · intro e he
    unfold bundleMeta
    rw [List.head?_map, he]
    rfl
  · unfold bundle
    rw [hEq]
  · unfold bundleMeta
    rw [hEq]

def w5l : List (QEntry Nat) :=
  [⟨2, .scal 12, 9, 5⟩, ⟨0, .scal 10, 9, 3⟩, ⟨1, .scal 11, 9, 4⟩]

def w5r : List (QEntry Nat) :=
  [⟨0, .scal 10, 9, 3⟩, ⟨1, .scal 11, 9, 4⟩, ⟨2, .scal 12, 9, 5⟩]

/-- Witness for C5: sub-indices arrive scrambled as `[2, 0, 1]` and the
Result Bundle comes out ordered `[0, 1, 2]`, independently of arrival
order. -/
theorem C5_bucket_ordering_witness :
    ((∀ a ∈ w5l, ∀ b ∈ w5l, a.uid = b.uid → a = b) ∧
     (∀ a ∈ w5l, ∀ b ∈ w5l, a.sub = b.sub → a = b) ∧
     w5r.Perm w5l) ∧
    (List.Sorted (fun a b : QEntry Nat => a.sub ≤ b.sub) (bundleEntries w5l) ∧
     (bundleEntries w5l).Perm (dedupQ w5l) ∧
     (∀ e, (bundleEntries w5l).head? = some e → bundleMeta w5l = some e.meta) ∧
     bundleEntries w5r = bundleEntries w5l ∧
     bundle w5r = bundle w5l ∧
     bundleMeta w5r = bundleMeta w5l) ∧
    bundle w5l = [.scal 10, .scal 11, .scal 12] :=
  ⟨⟨by decide, by decide, by decide⟩,
   C5_bucket_ordering w5l w5r (by decide) (by decide) (by decide), by decide⟩

def x7stream : List DocEntry := [⟨"k", 0, 0, 0, [⟨"bogus", none⟩]⟩]

def x7bk : Backend Nat := fun _ => none

/-- Counterexample to C7 as stated: a request whose declared type is not a
backend capability is NOT rejected by the Request Multiplexer at grouping
time — the `defaultdict` grouping stores the request and its origin record
without any check — and the fatal `AttributeError` only arises later, at
batch execution of that type. -/
theorem C7_unregistered_type_cex :
    (mux x7stream).requests "bogus" = [⟨"bogus", none, 0, 0⟩] ∧
    (mux x7stream).origins "bogus" = [⟨0, "k", 0, 0, 0, none⟩] ∧
    execAll ⟨1, 1, false⟩ x7bk (typesOf x7stream) ((mux x7stream).requests) =
      .error (.noAttr "bogus") :=
  ⟨by decide, by decide, rfl⟩

theorem execAll_error_of_unregistered {ρ : Type} (cfg : ExecCfg)
    (bk : Backend ρ) :
    ∀ (types : List RT) (requests : RT → List Req),
      (∃ rt ∈ types, bk rt = none ∧ requests rt ≠ []) →
      ∃ e, execAll cfg bk types requests = .error e := by
  intro types
  induction types with
  | nil =>
      rintro requests ⟨rt, hm, _⟩
      simp at hm
  | cons rt0 rts ih =>
      rintro requests ⟨rt, hm, hbk, hne⟩
      cases hb0 : bk rt0 with
      | none =>
          cases hr0 : requests rt0 with
          | nil =>
              have hmem : rt ∈ rts := by
                rcases List.mem_cons.1 hm with he | h
                · exact absurd hr0 (he ▸ hne)
                · exact h
              obtain ⟨e, he⟩ := ih requests ⟨rt, hmem, hbk, hne⟩
              refine ⟨e, ?_⟩
              simp only [execAll, hb0, hr0, he]
          | cons r rs =>
              refine ⟨.noAttr rt0, ?_⟩
              simp only [execAll, hb0, hr0]
      | some fg =>
          have hmem : rt ∈ rts := by
            rcases List.mem_cons.1 hm with he | h
            · rw [he] at hbk
              rw [hbk] at hb0
              exact absurd hb0 (by simp)
            · exact h
          obtain ⟨e, he⟩ := ih requests ⟨rt, hmem, hbk, hne⟩
          refine ⟨e, ?_⟩
          simp only [execAll, hb0, he]

theorem mem_typesOf_of_requests_ne_nil (stream : List DocEntry) (rt : RT)
    (h : (mux stream).requests rt ≠ []) : rt ∈ typesOf stream := by
  by_contra hc
  exact h (requests_nil_of_not_mem stream rt hc).1

/-- Claim C7 (amended): a request with an unregistered type is accepted by
the grouping stage, but the run is guaranteed to fail at batch execution:
if some emitted request carries a type the backend does not provide, that
type is a key of the grouped collections and `execAll` over the run's types
ends in a fatal error. -/
theorem C7_unregistered_type_amended {ρ : Type} (cfg : ExecCfg)
    (bk : Backend ρ) (stream : List DocEntry) (rt : RT)
    (hne : (mux stream).requests rt ≠ []) (hbk : bk rt = none) :
    rt ∈ typesOf stream ∧
    ∃ e, execAll cfg bk (typesOf stream) ((mux stream).requests) = .error e := by
  have hmem := mem_typesOf_of_requests_ne_nil stream rt hne
  exact ⟨hmem, execAll_error_of_unregistered cfg bk (typesOf stream)
    ((mux stream).requests) ⟨rt, hmem, hbk, hne⟩⟩

/-- Witness for the amended C7 at the concrete one-request stream. -/
theorem C7_unregistered_type_amended_witness :
    ((mux x7stream).requests "bogus" ≠ [] ∧ x7bk "bogus" = none) ∧
    ("bogus" ∈ typesOf x7stream ∧
      ∃ e, execAll ⟨1, 1, false⟩ x7bk (typesOf x7stream)
        ((mux x7stream).requests) = .error e) :=
  ⟨⟨by decide, rfl⟩,
   C7_unregistered_type_amended ⟨1, 1, false⟩ x7bk x7stream "bogus"
     (by decide) rfl⟩

/-- Claim C9: two runs with identical seed, document set and backend
produce identical request batches per type and identical per-document
Result Bundles; moreover, within each type the batches are the type's
request list in stable order with no shuffling — their concatenation is
exactly the per-type request list (padded first under distributed
execution). -/
theorem C9_determinism {σ α ρ : Type} (p : PrepParams σ α) (limit : Option Nat)
    (cfg : ExecCfg) (bk : Backend ρ) (seed1 seed2 : σ)
    (tasks1 tasks2 : List (String × List α))
    (hs : seed1 = seed2) (ht : tasks1 = tasks2) :
    (∀ rt, runBatches p limit cfg seed1 tasks1 rt =
        runBatches p limit cfg seed2 tasks2 rt) ∧
    runBundles p limit cfg bk seed1 tasks1 =
      runBundles p limit cfg bk seed2 tasks2 ∧
    (∀ rt, (runBatches p limit cfg seed1 tasks1 rt).flatten =
        (if cfg.dist then
          padStream (cfg.W * cfg.B)
            ((mux (prepAll p limit seed1 tasks1)).requests rt)
        else (mux (prepAll p limit seed1 tasks1)).requests rt)) := by
  subst hs
  subst ht
  refine ⟨fun rt => rfl, rfl, ?_⟩
  intro rt
  simp only [runBatches]
  by_cases hd : cfg.dist = true
  · rw [if_pos hd, if_pos hd, chunks_flatten]
  · rw [if_neg hd, if_neg hd, chunks_flatten]

def w9p : PrepParams Nat Nat :=
  ⟨fun _ => false, fun s l => (l, s), fun s d => (s + d, s + 1),
   fun _ _ => [⟨"ll", some 0⟩]⟩

def w9tasks : List (String × List Nat) := [("t", [4, 5])]

def w9bk : Backend Nat := fun _ => some (fun r => r.uid, fun r => r.docId)

/-- Witness for C9 at a concrete two-document run, with the concrete
Result Bundles evaluated. -/
theorem C9_determinism_witness :
    ((3 : Nat) = 3 ∧ w9tasks = w9tasks) ∧
    runBatches w9p none ⟨1, 1, false⟩ 3 w9tasks "ll" =
      runBatches w9p none ⟨1, 1, false⟩ 3 w9tasks "ll" ∧
    runBundles w9p none ⟨1, 1, false⟩ w9bk 3 w9tasks =
      runBundles w9p none ⟨1, 1, false⟩ w9bk 3 w9tasks ∧
    (runBatches w9p none ⟨1, 1, false⟩ 3 w9tasks "ll").flatten =
      (if (⟨1, 1, false⟩ : ExecCfg).dist then
        padStream ((⟨1, 1, false⟩ : ExecCfg).W * (⟨1, 1, false⟩ : ExecCfg).B)
          ((mux (prepAll w9p none 3 w9tasks)).requests "ll")
      else (mux (prepAll w9p none 3 w9tasks)).requests "ll") ∧
    runBundles w9p none ⟨1, 1, false⟩ w9bk 3 w9tasks =
      .ok [(("t", 0), [.scal 0]), (("t", 1), [.scal 1])] :=
  ⟨⟨rfl, rfl⟩,
   (C9_determinism w9p none ⟨1, 1, false⟩ w9bk 3 3 w9tasks w9tasks rfl rfl).1
     "ll",
   ((C9_determinism w9p none ⟨1, 1, false⟩ w9bk 3 3 w9tasks w9tasks rfl
       rfl).2).1,
   ((C9_determinism w9p none ⟨1, 1, false⟩ w9bk 3 3 w9tasks w9tasks rfl
       rfl).2).2 "ll",
   rfl⟩

def x1stream : List DocEntry :=
  [⟨"k", 0, 0, 0, [⟨"ll", some 1⟩]⟩, ⟨"k", 1, 1, 0, [⟨"ll", some 1⟩]⟩,
   ⟨"k", 2, 2, 0, [⟨"ll", some 1⟩]⟩]

def x1f0 : Req → Nat := fun r => 10 * r.docId

def x1f1 : Req → Nat := fun r => 100 * r.docId + 1

def x1bk : Backend Nat := fun _ => some (x1f0, x1f1)

/-- Claim C1: the claimed truncation contract fails in the code. With
`N = 3` requests, `B = 1`, `W = 2` (so the global batch is 2 and
`N mod (B·W) = 1`), the slice `responses[:len(dataset)-samples_seen]` of
line 329 is applied to the gathered 2-tuple of response streams, not to a
per-sample list, and `samples_seen` advances by the tuple length 2 per
batch; on the last batch the slice keeps `3 - 2 = 1` stream, the zip
collapses, and the third document is reconciled against the raw stream-0
tensor: its stored response is the padding value `0` taken at index 1 of
`[20, 0]` instead of its claimed stream-1 response `201`. The reconciled
count still equals `N = 3`, but the truncated stream is wrong. -/
theorem C1_truncation_code_bug :
    execType ⟨1, 2, true⟩ x1f0 x1f1 ((mux x1stream).requests "ll") =
      [⟨0, 0, .pairv 0 1⟩, ⟨1, 1, .pairv 10 101⟩, ⟨2, 2, .streamv [20, 0]⟩] ∧
    pipelineQueue ⟨1, 2, true⟩ x1bk x1stream =
      .ok [(("k", 0), ⟨0, .scal 1, 0, 0⟩), (("k", 1), ⟨0, .scal 101, 0, 1⟩),
           (("k", 2), ⟨0, .scal 0, 0, 2⟩)] ∧
    x1f1 ⟨"ll", some 1, 2, 2⟩ = 201 ∧ (0 : Nat) ≠ 201 :=
  ⟨by decide, rfl, rfl, by decide⟩

def x2stream : List DocEntry := [⟨"k", 0, 0, 0, [⟨"A", none⟩, ⟨"B", none⟩]⟩]

def x2bk : Backend Nat := fun _ => some (fun r => r.uid, fun r => r.uid)

/-- Counterexample to C2 as stated: a document with requests of two types
gets per-type `unique_request_id`s, so both its requests share
`unique_request_id = 0`; the per-bucket dedup of lines 358-364 keys on the
id alone and discards the second real response — the run recovers 1 triple
where construction produced 2. -/
theorem C2_bijection_cex :
    (pipelineQueue ⟨1, 1, false⟩ x2bk x2stream).toOption.map
      (fun q => ((recoveredTriples q).length,
        (constructedTriples x2stream).length)) = some (1, 2) := by
  decide

/-- Claim C2 (amended): when every document's requests share one request
type, `(task_template_key, doc_id)` identifies the document, every
`request_return_index` is a valid tuple index, the backend provides every
used type, and a distributed global batch holds at least 2 samples, the
pipeline succeeds and the recovered `(task_template_key, doc_id, sub_index)`
triples are a permutation of the constructed ones; each dispatch id of a
type yields exactly one surviving response in its document's bucket. -/
theorem C2_bijection_amended {ρ : Type} [DecidableEq ρ] (cfg : ExecCfg)
    (bk : Backend ρ) (stream : List DocEntry)
    (hbk : ∀ rt ∈ typesOf stream, (bk rt).isSome = true)
    (hsingle : ∀ d ∈ stream, ∀ pr ∈ d.reqs, ∀ pr2 ∈ d.reqs, pr.rt = pr2.rt)
    (hdocinj : ∀ d ∈ stream, ∀ d2 ∈ stream,
      d.key = d2.key → d.docId = d2.docId → d = d2)
    (hret : ∀ d ∈ stream, ∀ pr ∈ d.reqs,
      pr.retIdx = none ∨ pr.retIdx = some 0 ∨ pr.retIdx = some 1)
    (hG : cfg.dist = true → 2 ≤ cfg.W * cfg.B) :
    pipelineQueue cfg bk stream =
      .ok (((typesOf stream).map (typeQueue cfg bk stream)).flatten) ∧
    (recoveredTriples
        (((typesOf stream).map (typeQueue cfg bk stream)).flatten)).Perm
      (constructedTriples stream) ∧
    (∀ rt u, u < ((mux stream).origins rt).length →
      (dedupQ (bucketOf
          (((typesOf stream).map (typeQueue cfg bk stream)).flatten)
          (keyAt ((mux stream).origins rt) u))).countP
        (fun e => e.uid = u) = 1) :=
  ⟨pipeline_ok cfg bk stream hbk hret hG,
   pipeline_perm cfg bk stream hbk hsingle hdocinj hret hG,
   pipeline_count cfg bk stream hbk hsingle hdocinj hret hG⟩

def w2stream : List DocEntry :=
  [⟨"k0", 0, 0, 0, [⟨"ll", some 0⟩, ⟨"ll", some 1⟩]⟩,
   ⟨"k1", 1, 1, 0, [⟨"gen", none⟩]⟩]

def w2bk : Backend Nat :=
  fun _ => some (fun r => 10 * r.uid, fun r => 100 * r.uid + 7)

def w2cfg : ExecCfg := ⟨1, 2, true⟩

/-- Witness for the amended C2 at a distributed two-document,
two-type run. -/
theorem C2_bijection_amended_witness :
    ((∀ rt ∈ typesOf w2stream, (w2bk rt).isSome = true) ∧
     (∀ d ∈ w2stream, ∀ pr ∈ d.reqs, ∀ pr2 ∈ d.reqs, pr.rt = pr2.rt) ∧
     (∀ d ∈ w2stream, ∀ d2 ∈ w2stream,
       d.key = d2.key → d.docId = d2.docId → d = d2) ∧
     (∀ d ∈ w2stream, ∀ pr ∈ d.reqs,
       pr.retIdx = none ∨ pr.retIdx = some 0 ∨ pr.retIdx = some 1) ∧
     (w2cfg.dist = true → 2 ≤ w2cfg.W * w2cfg.B) ∧
     1 < ((mux w2stream).origins "ll").length) ∧
    pipelineQueue w2cfg w2bk w2stream =
      .ok (((typesOf w2stream).map (typeQueue w2cfg w2bk w2stream)).flatten) ∧
    (recoveredTriples
        (((typesOf w2stream).map (typeQueue w2cfg w2bk w2stream)).flatten)).Perm
      (constructedTriples w2stream) ∧
    (dedupQ (bucketOf
        (((typesOf w2stream).map (typeQueue w2cfg w2bk w2stream)).flatten)
        (keyAt ((mux w2stream).origins "ll") 1))).countP
      (fun e => e.uid = 1) = 1 :=
  ⟨⟨by decide, by decide, by decide, by decide, by decide, by decide⟩,
   (C2_bijection_amended w2cfg w2bk w2stream (by decide) (by decide)
     (by decide) (by decide) (by decide)).1,
   (C2_bijection_amended w2cfg w2bk w2stream (by decide) (by decide)
     (by decide) (by decide) (by decide)).2.1,
   (C2_bijection_amended w2cfg w2bk w2stream (by decide) (by decide)
     (by decide) (by decide) (by decide)).2.2 "ll" 1 (by decide)⟩

end LMEval
